import Mathlib

/-!
Verification of file-analyser-golang: aggregation and rank selection.

A shallow embedding of `fileanalyser.go`.

* Go strings are Lean `String`s; the library functions the program calls
  (`strings.Split`, `strings.TrimSpace`, `strings.Contains`, `strconv.ParseInt`,
  `fmt.Sprintf`, `sort.Sort`, `sort.Reverse`) are given by small executable models of
  their documented behaviour.
* A Go `map[string]int` is an association list with pairwise distinct keys
  (`CounterMap`); reading an absent key yields `0`, writing an absent key adds it.
  The order of the list stands for the order in which `range` enumerates the map, which
  Go leaves unspecified: statements about `sortMapGetResult` are therefore made for
  every enumeration.
* Go `int` is taken to be 64 bits wide.  `speechesWords[speaker] += int(wordCount)` adds
  numbers as large as the input likes, so it is modelled with two's-complement
  wrap-around (`wrapInt`).  The two `++` counters grow by one per received line and
  cannot leave the `int` range in fewer than `2^63` lines; they are modelled by exact
  integer increments.
* The channel `lines` is the list of the values received from it, in arrival order,
  up to the moment it is closed.
* `http.Get` is what it returns: an error, or a body.  The `bufio.Scanner` over the body
  is the sequence of its successful `Scan` calls, each with the text and the value of
  `Err()` at that moment, and the value of `Err()` after `Scan` has returned false.
-/

namespace FileAnalyser

/-! ## Data model -/

/-- Index of the speaker field (`posSpeaker`). -/
def posSpeaker : Nat := 0

/-- Index of the topic field (`posTopic`). -/
def posTopic : Nat := 1

/-- Index of the date field (`posDate`). -/
def posDate : Nat := 2

/-- Index of the word-count field (`posWordCount`). -/
def posWordCount : Nat := 3

/-- The struct `lineResult`: a raw line, the URL it came from, and an error.  A Go
`error` is used only through `Error()`, so it is its message, `none` standing for `nil`. -/
structure lineResult where
  line : String
  url : String
  err : Option String
deriving DecidableEq, Repr

/-- The struct `analysisResult`. -/
structure analysisResult where
  MostSpeeches : String
  MostSecurity : String
  LeastWordy : String
  Errors : List String
deriving DecidableEq, Repr

/-- The struct `Pair`. -/
structure Pair where
  Key : String
  Value : Int
deriving DecidableEq, Repr

/-- The type `PairList`. -/
abbrev PairList := List Pair

/-- A Go `map[string]int`, as the list of its entries. -/
abbrev CounterMap := List (String × Int)

/-! ## Go library functions used by the program -/

/-- Splitting a character sequence at every occurrence of `c`. -/
def splitOn (c : Char) : List Char → List (List Char)
  | [] => [[]]
  | x :: xs =>
    if x = c then [] :: splitOn c xs
    else
      match splitOn c xs with
      | [] => [[x]]
      | f :: fs => (x :: f) :: fs

/-- Go `strings.Split(s, sep)` for a one-character separator: the fields between
consecutive separators, `n + 1` of them when `s` holds `n` separators. -/
def stringsSplit (s : String) (sep : Char) : List String :=
  (splitOn sep s.data).map String.mk

/-- Go `unicode.IsSpace`. -/
def isSpace (c : Char) : Bool :=
  let n := c.toNat
  (9 ≤ n && n ≤ 13) || n = 32 || n = 133 || n = 160 || n = 5760 ||
    (8192 ≤ n && n ≤ 8202) || n = 8232 || n = 8233 || n = 8239 || n = 8287 || n = 12288

/-- Go `strings.TrimSpace`: all leading and trailing white space removed. -/
def stringsTrimSpace (s : String) : String :=
  String.mk ((((s.data.dropWhile isSpace).reverse).dropWhile isSpace).reverse)

/-- Whether `sub` occurs in `s` as a contiguous block. -/
def containsChars (sub : List Char) : List Char → Bool
  | [] => sub.isPrefixOf []
  | c :: cs => sub.isPrefixOf (c :: cs) || containsChars sub cs

/-- Go `strings.Contains(s, substr)`. -/
def stringsContains (s substr : String) : Bool :=
  containsChars substr.data s.data

/-- The value of a decimal digit, `none` for any other character. -/
def digitValue (c : Char) : Option Nat :=
  if 48 ≤ c.toNat ∧ c.toNat ≤ 57 then some (c.toNat - 48) else none

/-- The number written by a sequence of decimal digits, read left to right onto `acc`. -/
def parseDigits : List Char → Nat → Option Nat
  | [], acc => some acc
  | c :: cs, acc =>
    match digitValue c with
    | none => none
    | some d => parseDigits cs (acc * 10 + d)

/-- The width of a Go `int`. -/
def intSize : Nat := 64

/-- Go `strconv.ParseInt(s, 10, 0)`: an optional sign followed by one or more decimal
digits, whose value fits a Go `int`; `none` is a non-nil error. -/
def strconvParseInt (s : String) : Option Int :=
  match s.data with
  | [] => none
  | c :: cs =>
    let neg : Bool := c = '-'
    let digits := if c = '+' ∨ c = '-' then cs else c :: cs
    if digits = [] then none
    else
      match parseDigits digits 0 with
      | none => none
      | some un =>
        let cutoff : Nat := 2 ^ (intSize - 1)
        if neg = false ∧ un ≥ cutoff then none
        else if neg = true ∧ un > cutoff then none
        else some (if neg then -(un : Int) else (un : Int))

/-- Reduction of an integer to the range of a Go `int` (two's complement). -/
def wrapInt (x : Int) : Int :=
  (x + 9223372036854775808) % 18446744073709551616 - 9223372036854775808

/-! ## Maps -/

/-- The entry of key `k`, if the map has one. -/
def mapFind? : CounterMap → String → Option Int
  | [], _ => none
  | (k', v) :: rest, k => if k' = k then some v else mapFind? rest k

/-- Reading `m[k]`: the zero value when `k` is absent. -/
def mapGet (m : CounterMap) (k : String) : Int :=
  (mapFind? m k).getD 0

/-- Writing `m[k] = v`: the entry is replaced, or added when `k` is absent. -/
def mapSet : CounterMap → String → Int → CounterMap
  | [], k, v => [(k, v)]
  | (k', v') :: rest, k, v =>
    if k' = k then (k', v) :: rest else (k', v') :: mapSet rest k v

/-- The statement `m[k] += d` on Go `int`s. -/
def mapAdd (m : CounterMap) (k : String) (d : Int) : CounterMap :=
  mapSet m k (wrapInt (mapGet m k + d))

/-- The statement `m[k]++`. -/
def mapIncr (m : CounterMap) (k : String) : CounterMap :=
  mapSet m k (mapGet m k + 1)

/-- The keys of a map, in enumeration order. -/
def mapKeys (m : CounterMap) : List String := m.map Prod.fst

/-- The sum of all values of a map. -/
def mapSum (m : CounterMap) : Int := (m.map Prod.snd).sum

/-! ## `sortMapGetResult` -/

/-- The method `PairList.Less`, on the two elements it compares. -/
def PairList.Less (a b : Pair) : Bool := decide (a.Value > b.Value)

/-- Go `sort.Reverse`: the ordering with the arguments of `Less` swapped. -/
def sortReverse (less : Pair → Pair → Bool) (a b : Pair) : Bool := less b a

/-- Go `sort.Sort`: the elements rearranged so that no element is `less` than one before
it.  The rearrangement is an insertion sort; `sort.Sort` promises no particular order
among elements neither of which is `less` than the other. -/
def sortSort (less : Pair → Pair → Bool) (pl : PairList) : PairList :=
  pl.insertionSort (fun a b => less b a = false)

/-- The last three lines of `sortMapGetResult`, on the sorted list:
`if len(pl) > 1 && pl[0].Value == pl[1].Value { return "null" }; return pl[0].Key`.
The list is never empty there. -/
def topOrNull : PairList → String
  | a :: b :: _ => if a.Value = b.Value then "null" else a.Key
  | [a] => a.Key
  | [] => "null"

/-- The function `sortMapGetResult`; `mp` lists the map in the order `range` yields it. -/
def sortMapGetResult (mp : CounterMap) (getFirst : Bool) : String :=
  if mp.length = 0 then "null"
  else
    let pl : PairList := mp.map (fun kv => Pair.mk kv.1 kv.2)
    let pl := if getFirst then sortSort PairList.Less pl
      else sortSort (sortReverse PairList.Less) pl
    topOrNull pl

/-! ## `analyseLines` -/

/-- The local variables of `analyseLines` that its loop updates. -/
structure analyseState where
  Errors : List String
  speeches2013 : CounterMap
  speechesSecurity : CounterMap
  speechesWords : CounterMap
deriving DecidableEq, Repr

/-- The variables of `analyseLines` before the loop. -/
def analyseState.init : analyseState :=
  { Errors := [], speeches2013 := [], speechesSecurity := [], speechesWords := [] }

/-- The text of `fmt.Sprintf("Not enough elements. URL: '%s' Line: '%s'", url, line)`. -/
def errNotEnough (url line : String) : String :=
  "Not enough elements. URL: '" ++ url ++ "' Line: '" ++ line ++ "'"

/-- The text of `fmt.Sprintf("Word count invalid format. URL: '%s' Line: '%s'", url, line)`. -/
def errWordCount (url line : String) : String :=
  "Word count invalid format. URL: '" ++ url ++ "' Line: '" ++ line ++ "'"

/-- One iteration of the loop of `analyseLines`. -/
def analyseLine (st : analyseState) (line : lineResult) : analyseState :=
  match line.err with
  | some e => { st with Errors := st.Errors ++ [e] }
  | none =>
    let substrings := stringsSplit line.line ','
    if substrings.length ≠ 4 then
      { st with Errors := st.Errors ++ [errNotEnough line.url line.line] }
    else
      match strconvParseInt (stringsTrimSpace (substrings.getD posWordCount "")) with
      | none => { st with Errors := st.Errors ++ [errWordCount line.url line.line] }
      | some wordCount =>
        let speaker := substrings.getD posSpeaker ""
        let words := mapAdd st.speechesWords speaker wordCount
        let in2013 :=
          if stringsContains (substrings.getD posDate "") "2013" then
            mapIncr st.speeches2013 speaker
          else st.speeches2013
        let security :=
          if stringsTrimSpace (substrings.getD posTopic "") = "Innere Sicherheit" then
            mapIncr st.speechesSecurity speaker
          else st.speechesSecurity
        { st with speeches2013 := in2013, speechesSecurity := security, speechesWords := words }

/-- The loop of `analyseLines` over the values received from the channel. -/
def analyseLoop (lines : List lineResult) : analyseState :=
  lines.foldl analyseLine analyseState.init

/-- The function `analyseLines`: the value it sends on `result`. -/
def analyseLines (lines : List lineResult) : analysisResult :=
  let st := analyseLoop lines
  { MostSpeeches := sortMapGetResult st.speeches2013 true
    MostSecurity := sortMapGetResult st.speechesSecurity true
    LeastWordy := sortMapGetResult st.speechesWords false
    Errors := st.Errors }

/-! ## Notions used to state the properties -/

/-- A parsed line: the four fields of an accepted line, the last one as a number. -/
structure Record where
  speaker : String
  topic : String
  date : String
  wordCount : Int
deriving DecidableEq, Repr

/-- The record of an accepted event: the event carries no error, its line has exactly
four comma-separated fields, and the fourth (white space around it removed, as
`analyseLines` does before parsing) is an integer.  Any other event is rejected. -/
def acceptedRecord (e : lineResult) : Option Record :=
  match e.err with
  | some _ => none
  | none =>
    match stringsSplit e.line ',' with
    | [speaker, topic, date, count] =>
      match strconvParseInt (stringsTrimSpace count) with
      | some n => some { speaker := speaker, topic := topic, date := date, wordCount := n }
      | none => none
    | _ => none

/-- The records of the accepted events of a run, in arrival order. -/
def acceptedRecords (lines : List lineResult) : List Record :=
  lines.filterMap acceptedRecord

/-- An event that carries the text of a line and no error. -/
def rawLine (url line : String) : lineResult :=
  { line := line, url := url, err := none }

/-- The two data lines of scenario A. -/
def scenarioA : List lineResult :=
  [rawLine "u" "A,Economy,2013-01-01,100", rawLine "u" "B,Other,2012-01-01,50"]

/-- The value a direction ranks by: the value itself for MAX (`getFirst = true`), its
negation for MIN, so that in both directions the best entry has the greatest score. -/
def score (getFirst : Bool) (p : Pair) : Int :=
  if getFirst then p.Value else -p.Value

/-- The `Pair` that `sortMapGetResult` builds from a map entry. -/
def toPair (kv : String × Int) : Pair := Pair.mk kv.1 kv.2

/-- The sorted list inside `sortMapGetResult`. -/
def sortedPairs (mp : CounterMap) (getFirst : Bool) : PairList :=
  if getFirst then sortSort PairList.Less (mp.map toPair)
  else sortSort (sortReverse PairList.Less) (mp.map toPair)

/-- The greatest value of a map, `none` for the empty map. -/
def maxValue? : CounterMap → Option Int
  | [] => none
  | (_, v) :: rest =>
    match maxValue? rest with
    | none => some v
    | some m => some (max v m)

/-- The "count of entries sharing the maximum" rule of the design notes: the sentinel
exactly when more than one entry holds the maximum value, otherwise the key holding the
maximum.  The rule is silent on the empty mapping, which has no maximum; the sentinel
is returned there. -/
def countMaxRule (mp : CounterMap) : String :=
  match maxValue? mp with
  | none => "null"
  | some m =>
    if (mp.filter (fun e => e.2 = m)).length > 1 then "null"
    else
      match mp.find? (fun e => e.2 = m) with
      | some e => e.1
      | none => "null"

/-- The error string `analyseLines` appends for an event, `none` when the event is an
accepted line. -/
def rejectionError (e : lineResult) : Option String :=
  match e.err with
  | some msg => some msg
  | none =>
    if (stringsSplit e.line ',').length ≠ 4 then some (errNotEnough e.url e.line)
    else
      match strconvParseInt
        (stringsTrimSpace ((stringsSplit e.line ',').getD posWordCount "")) with
      | none => some (errWordCount e.url e.line)
      | some _ => none

/-- A sequence of updates `m[k] = w (m[k] + d)`, one per pair `(k, d)`, applied in order. -/
def applyUpd (w : Int → Int) (m : CounterMap) (us : List (String × Int)) : CounterMap :=
  us.foldl (fun m u => mapSet m u.1 (w (mapGet m u.1 + u.2))) m

/-- The amounts by which a sequence of updates changes key `k`. -/
def deltas (k : String) (us : List (String × Int)) : List Int :=
  (us.filter (fun u => u.1 = k)).map Prod.snd

/-- The updates of `speechesWords` made by a run: speaker and word count of every
accepted line. -/
def wordsUpdates (lines : List lineResult) : List (String × Int) :=
  (acceptedRecords lines).map (fun r => (r.speaker, r.wordCount))

/-- The updates of `speeches2013` made by a run: one for every accepted line whose date
contains "2013". -/
def in2013Updates (lines : List lineResult) : List (String × Int) :=
  ((acceptedRecords lines).filter (fun r => stringsContains r.date "2013")).map
    (fun r => (r.speaker, 1))

/-- The updates of `speechesSecurity` made by a run: one for every accepted line whose
trimmed topic is the target topic. -/
def securityUpdates (lines : List lineResult) : List (String × Int) :=
  ((acceptedRecords lines).filter
    (fun r => stringsTrimSpace r.topic = "Innere Sicherheit")).map (fun r => (r.speaker, 1))

/-- The sum of the absolute values of a map. -/
def mapAbsSum (m : CounterMap) : Int := (m.map (fun e => |e.2|)).sum


/-- Two accepted lines of one speaker whose word counts add up beyond the `int` range. -/
def overflowLines : List lineResult :=
  [rawLine "u" "A,Economy,2013-01-01,9223372036854775807",
   rawLine "u" "A,Economy,2013-01-02,9223372036854775807"]

/-- The two data lines of scenario D: two speakers with equal total word counts. -/
def scenarioD : List lineResult :=
  [rawLine "u" "A,Economy,2013-01-01,100", rawLine "u" "B,Other,2012-01-01,100"]

/-- The malformed line of scenario C. -/
def scenarioCLine : lineResult := rawLine "u" "A,Economy,2013,notanumber"


/-- Scenario A followed by two speeches of speaker C on the target topic. -/
def securityLines : List lineResult :=
  scenarioA ++ [rawLine "v" "C, Innere Sicherheit ,2013-05-05,10",
    rawLine "v" "C,Innere Sicherheit,2014-01-01,20", rawLine "v" "C,Innere Sicherheit2,2014-01-01,5"]


/-! ## `readURLLines` -/

/-- One call of `scanner.Scan()` that returned true: the line `scanner.Text()` holds and
what `scanner.Err()` returns at that moment. -/
structure scanStep where
  text : String
  err : Option String
deriving DecidableEq, Repr

/-- What the `bufio.Scanner` over a response body does when `Scan` is called until it
returns false: the successful calls in order, and what `Err()` returns once `Scan` has
returned false (`none` at the end of the input, the error when reading failed). -/
structure bodyScan where
  steps : List scanStep
  finalErr : Option String
deriving DecidableEq, Repr

/-- What one call of `readURLLines` does: the values it sends on `lines`, in order, and
whether `wg.Done()` has run when it returns. -/
structure readerRun where
  sent : List lineResult
  wgDone : Bool
deriving DecidableEq, Repr

/-- The loop `for scanner.Scan() { ... }` of `readURLLines`, over the successful calls of
`Scan` that remain. -/
def readLoop (url : String) : List scanStep → List lineResult
  | [] => []
  | s :: rest =>
    match s.err with
    | some e => [{ line := "", url := url, err := some e }]
    | none => { line := s.text, url := url, err := none } :: readLoop url rest

/-- The function `readURLLines`; `get` is what `http.Get(url)` returns: the message of
its error, or the body as its scanner reads it.  The first `scanner.Scan()` is made and
its result ignored; `wg.Done()` is deferred and runs on every return. -/
def readURLLines (url : String) (get : Except String bodyScan) : readerRun :=
  match get with
  | .error e => { sent := [{ line := "", url := url, err := some e }], wgDone := true }
  | .ok body => { sent := readLoop url (body.steps.drop 1), wgDone := true }

/-- A scanner that delivers the given lines, none with an error, and then ends with
`finalErr`. -/
def scanOfLines (ls : List String) (finalErr : Option String) : bodyScan :=
  { steps := ls.map (fun l => { text := l, err := none }), finalErr := finalErr }

/-- A body of a header and two data lines after which reading fails: `Scan` returns
false and `Err()` returns the read error. -/
def brokenBody : bodyScan :=
  scanOfLines ["Speaker,Topic,Date,Words", "A,Economy,2013-01-01,100", "B,Other,2012-01-01,50"]
    (some "unexpected EOF")

/-- A failure event as `readURLLines` sends it when `scanner.Err()` is not nil. -/
def readFailure : lineResult :=
  { line := "", url := "http://example.org/speeches.csv", err := some "unexpected EOF" }

/-- A map whose only best entry belongs to a speaker called "null". -/
def nullSpeakerMap : CounterMap := [("A", 1), ("null", 3)]

/-- Scenario A with source failures before, between and after its two lines. -/
def scenarioAWithFailures : List lineResult :=
  [readFailure, rawLine "u" "A,Economy,2013-01-01,100", readFailure, readFailure,
    rawLine "u" "B,Other,2012-01-01,50", readFailure]


/-! ## Sorting and the rank rule -/

theorem less_false_iff (a b : Pair) : PairList.Less b a = false ↔ b.Value ≤ a.Value := by
  simp [PairList.Less]

theorem sortReverse_false_iff (a b : Pair) :
    sortReverse PairList.Less b a = false ↔ a.Value ≤ b.Value := by
  simp [sortReverse, PairList.Less]

theorem sortedPairs_perm (mp : CounterMap) (getFirst : Bool) :
    List.Perm (sortedPairs mp getFirst) (mp.map toPair) := by
  unfold sortedPairs sortSort
  split <;> exact List.perm_insertionSort _ _

theorem sortedPairs_sorted (mp : CounterMap) (getFirst : Bool) :
    (sortedPairs mp getFirst).Sorted (fun a b => score getFirst b ≤ score getFirst a) := by
  cases getFirst with
  | true =>
    haveI : IsTotal Pair (fun a b => PairList.Less b a = false) :=
      ⟨fun a b => by simp only [less_false_iff]; omega⟩
    haveI : IsTrans Pair (fun a b => PairList.Less b a = false) :=
      ⟨fun a b c => by simp only [less_false_iff]; omega⟩
    have h := List.sorted_insertionSort (fun a b => PairList.Less b a = false) (mp.map toPair)
    simp only [sortedPairs, sortSort, score, if_true]
    exact h.imp (fun {a b} hab => (less_false_iff a b).1 hab)
  | false =>
    haveI : IsTotal Pair (fun a b => sortReverse PairList.Less b a = false) :=
      ⟨fun a b => by simp only [sortReverse_false_iff]; omega⟩
    haveI : IsTrans Pair (fun a b => sortReverse PairList.Less b a = false) :=
      ⟨fun a b c => by simp only [sortReverse_false_iff]; omega⟩
    have h := List.sorted_insertionSort
      (fun a b => sortReverse PairList.Less b a = false) (mp.map toPair)
    simp only [sortedPairs, sortSort, score, Bool.false_eq_true, if_false]
    exact h.imp (fun {a b} hab => by
      have := (sortReverse_false_iff a b).1 hab
      omega)

theorem sortMapGetResult_eq (mp : CounterMap) (getFirst : Bool) (h : mp ≠ []) :
    sortMapGetResult mp getFirst = topOrNull (sortedPairs mp getFirst) := by
  have hl : mp.length ≠ 0 := by simpa using h
  unfold sortMapGetResult sortedPairs
  simp only [hl, if_false]
  rfl

theorem score_eq_iff (g : Bool) (a b : Pair) :
    score g a = score g b ↔ a.Value = b.Value := by
  cases g <;> simp [score]

/-- On a list sorted by decreasing score in which one element beats every other
strictly, the rank rule returns that element's key. -/
theorem topOrNull_unique (g : Bool) {s pl : PairList}
    (hs : s.Sorted (fun a b => score g b ≤ score g a)) (hperm : List.Perm s pl)
    (hnd : pl.Nodup) {p : Pair} (hp : p ∈ pl)
    (hbest : ∀ q ∈ pl, q ≠ p → score g q < score g p) : topOrNull s = p.Key := by
  cases s with
  | nil => exact absurd (hperm.mem_iff.2 hp) (List.not_mem_nil p)
  | cons a rest =>
    have hps : p ∈ a :: rest := hperm.mem_iff.2 hp
    have ha : a = p := by
      by_contra hne
      have h1 := hbest a (hperm.mem_iff.1 (List.mem_cons_self a rest)) hne
      have hpr : p ∈ rest := by
        rcases List.mem_cons.1 hps with h | h
        · exact absurd h.symm hne
        · exact h
      have h2 := List.rel_of_sorted_cons hs p hpr
      omega
    subst ha
    cases rest with
    | nil => rfl
    | cons b rest2 =>
      have hnds : (a :: b :: rest2).Nodup := hperm.nodup_iff.2 hnd
      have hba : b ≠ a := by
        intro h
        have := (List.nodup_cons.1 hnds).1
        exact this (by simp [h])
      have h1 := hbest b (hperm.mem_iff.1 (by simp)) hba
      have hv : ¬ a.Value = b.Value := by
        intro h
        have := (score_eq_iff g a b).2 h
        omega
      simp [topOrNull, hv]

/-- On a list sorted by decreasing score in which two different elements both hold the
best score, the rank rule returns the sentinel. -/
theorem topOrNull_tie (g : Bool) {s pl : PairList}
    (hs : s.Sorted (fun a b => score g b ≤ score g a)) (hperm : List.Perm s pl)
    {p q : Pair} (hp : p ∈ pl) (hq : q ∈ pl) (hpq : p ≠ q)
    (hbest : ∀ x ∈ pl, score g x ≤ score g p) (heq : score g q = score g p) :
    topOrNull s = "null" := by
  have hps : p ∈ s := hperm.mem_iff.2 hp
  have hqs : q ∈ s := hperm.mem_iff.2 hq
  cases s with
  | nil => exact absurd hps (List.not_mem_nil p)
  | cons a rest =>
    cases rest with
    | nil =>
      simp only [List.mem_singleton] at hps hqs
      exact absurd (hps.trans hqs.symm) hpq
    | cons b rest2 =>
      have hsa := List.rel_of_sorted_cons hs
      have hsb := List.rel_of_sorted_cons hs.of_cons
      have ha1 := hbest a (hperm.mem_iff.1 (by simp))
      have hb1 := hbest b (hperm.mem_iff.1 (by simp))
      have hab := hsa b (by simp)
      have hb2 : score g p ≤ score g b := by
        by_cases hpa : p = a
        · have hqa : q ≠ a := fun h => hpq (hpa.trans h.symm)
          have hq2 : q ∈ b :: rest2 := by
            rcases List.mem_cons.1 hqs with h | h
            · exact absurd h hqa
            · exact h
          rcases List.mem_cons.1 hq2 with h | h
          · rw [← h, heq]
          · have := hsb q h
            omega
        · have hp2 : p ∈ b :: rest2 := by
            rcases List.mem_cons.1 hps with h | h
            · exact absurd h hpa
            · exact h
          rcases List.mem_cons.1 hp2 with h | h
          · rw [← h]
          · exact hsb p h
      have hv : a.Value = b.Value := (score_eq_iff g a b).1 (by omega)
      simp [topOrNull, hv]

/-- The head of a list sorted by decreasing score has the greatest score. -/
theorem sorted_head_max (g : Bool) {a : Pair} {rest : PairList}
    (hs : (a :: rest).Sorted (fun a b => score g b ≤ score g a)) :
    ∀ x ∈ a :: rest, score g x ≤ score g a := by
  intro x hx
  rcases List.mem_cons.1 hx with h | h
  · rw [h]
  · exact List.rel_of_sorted_cons hs x h

/-- The rank rule gives the same answer on any two sorted arrangements of the same
entries. -/
theorem topOrNull_sorted_perm (g : Bool) {s t : PairList}
    (hs : s.Sorted (fun a b => score g b ≤ score g a))
    (ht : t.Sorted (fun a b => score g b ≤ score g a)) (hperm : List.Perm s t) :
    topOrNull s = topOrNull t := by
  cases s with
  | nil => rw [List.nil_perm.1 hperm]
  | cons a1 s1 =>
    cases t with
    | nil => exact absurd (List.perm_nil.1 hperm) (List.cons_ne_nil a1 s1)
    | cons a2 t1 =>
      have hlen := hperm.length_eq
      have hm1 := sorted_head_max g hs
      have hm2 := sorted_head_max g ht
      have ha12 : score g a1 = score g a2 := by
        have h1 := hm1 a2 (hperm.mem_iff.2 (List.mem_cons_self a2 t1))
        have h2 := hm2 a1 (hperm.mem_iff.1 (List.mem_cons_self a1 s1))
        omega
      cases s1 with
      | nil =>
        cases t1 with
        | nil =>
          have : a1 = a2 := by simpa using hperm
          rw [this]
        | cons b2 t2 => simp at hlen
      | cons b1 s2 =>
        cases t1 with
        | nil => simp at hlen
        | cons b2 t2 =>
          have hn1 := sorted_head_max g hs.of_cons
          have hn2 := sorted_head_max g ht.of_cons
          have hb1 := hm1 b1 (by simp)
          have hb2 := hm2 b2 (by simp)
          by_cases hEq : a1 = a2
          · subst hEq
            have htail : List.Perm (b1 :: s2) (b2 :: t2) := hperm.cons_inv
            have h1 := hn1 b2 (htail.mem_iff.2 (List.mem_cons_self b2 t2))
            have h2 := hn2 b1 (htail.mem_iff.1 (List.mem_cons_self b1 s2))
            have hb : b1.Value = b2.Value := (score_eq_iff g b1 b2).1 (by omega)
            simp [topOrNull, hb]
          · have h2in : a2 ∈ b1 :: s2 := by
              have : a2 ∈ a1 :: b1 :: s2 := hperm.mem_iff.2 (List.mem_cons_self a2 _)
              rcases List.mem_cons.1 this with h | h
              · exact absurd h.symm hEq
              · exact h
            have h1in : a1 ∈ b2 :: t2 := by
              have : a1 ∈ a2 :: b2 :: t2 := hperm.mem_iff.1 (List.mem_cons_self a1 _)
              rcases List.mem_cons.1 this with h | h
              · exact absurd h hEq
              · exact h
            have h1 := hn1 a2 h2in
            have h2 := hn2 a1 h1in
            have hv1 : a1.Value = b1.Value := (score_eq_iff g a1 b1).1 (by omega)
            have hv2 : a2.Value = b2.Value := (score_eq_iff g a2 b2).1 (by omega)
            simp [topOrNull, hv1, hv2]

/-- The result of `sortMapGetResult` is the same for every enumeration of a map. -/
theorem sortMapGetResult_perm {m1 m2 : CounterMap} (h : List.Perm m1 m2) (g : Bool) :
    sortMapGetResult m1 g = sortMapGetResult m2 g := by
  by_cases h1 : m1 = []
  · have h2 : m2 = [] := by rw [h1] at h; exact List.nil_perm.1 h
    rw [h1, h2]
  · have h2 : m2 ≠ [] := fun h2 => h1 (by rw [h2] at h; exact List.perm_nil.1 h)
    rw [sortMapGetResult_eq m1 g h1, sortMapGetResult_eq m2 g h2]
    apply topOrNull_sorted_perm g (sortedPairs_sorted m1 g) (sortedPairs_sorted m2 g)
    exact ((sortedPairs_perm m1 g).trans (h.map toPair)).trans (sortedPairs_perm m2 g).symm

theorem toPair_injective : Function.Injective toPair := by
  intro a b h
  cases a; cases b
  simp only [toPair, Pair.mk.injEq] at h
  exact Prod.ext h.1 h.2

/-- Every list that `sort.Sort` may leave behind (any arrangement of the entries in which
no element is `less` than an earlier one) is what `sortedPairs` computes for some
enumeration of the same map: statements made for all enumerations cover every outcome of
the unstable sort. -/
theorem sortedPairs_covers_outcomes (mp : CounterMap) (getFirst : Bool) (s : PairList)
    (hperm : List.Perm s (mp.map toPair))
    (hs : s.Sorted (fun a b =>
      (if getFirst then PairList.Less else sortReverse PairList.Less) b a = false)) :
    ∃ mp', List.Perm mp' mp ∧ sortedPairs mp' getFirst = s := by
  have hmap : (s.map (fun p => (p.Key, p.Value))).map toPair = s := by
    rw [List.map_map]
    exact List.map_id _
  refine ⟨s.map (fun p => (p.Key, p.Value)), ?_, ?_⟩
  · have h := hperm.map (fun p : Pair => (p.Key, p.Value))
    rw [List.map_map] at h
    have hid : ((fun p : Pair => (p.Key, p.Value)) ∘ toPair) = id := by
      funext e
      rfl
    rw [hid, List.map_id] at h
    exact h
  · unfold sortedPairs sortSort
    rw [hmap]
    cases getFirst with
    | true => exact List.Sorted.insertionSort_eq hs
    | false => exact List.Sorted.insertionSort_eq hs

/-- In a map with distinct keys an entry is determined by its key. -/
theorem entry_eq_of_key {mp : CounterMap} (hnd : (mapKeys mp).Nodup) {e e' : String × Int}
    (he : e ∈ mp) (he' : e' ∈ mp) (hk : e.1 = e'.1) : e = e' :=
  List.inj_on_of_nodup_map hnd he he' hk

/-- The entry that strictly beats every other one is the result, in either direction. -/
theorem sortMapGetResult_best (g : Bool) (mp : CounterMap) (k : String) (v : Int)
    (hnd : (mapKeys mp).Nodup) (hk : (k, v) ∈ mp)
    (hbest : ∀ e ∈ mp, e.1 ≠ k → score g (toPair e) < score g (toPair (k, v))) :
    sortMapGetResult mp g = k := by
  have hne : mp ≠ [] := List.ne_nil_of_mem hk
  rw [sortMapGetResult_eq mp g hne]
  have hndp : (mp.map toPair).Nodup := (List.Nodup.of_map Prod.fst hnd).map toPair_injective
  have hp : toPair (k, v) ∈ mp.map toPair := List.mem_map_of_mem toPair hk
  have := topOrNull_unique g (sortedPairs_sorted mp g) (sortedPairs_perm mp g) hndp hp
    (by
      intro q hq hqp
      obtain ⟨e, he, rfl⟩ := List.mem_map.1 hq
      apply hbest e he
      intro hek
      exact hqp (by rw [entry_eq_of_key hnd he hk hek]))
  simpa [toPair] using this

/-- Two entries with different keys that both hold the best value give the sentinel. -/
theorem sortMapGetResult_null_of_tie (g : Bool) (mp : CounterMap) (k1 k2 : String) (v : Int)
    (h1 : (k1, v) ∈ mp) (h2 : (k2, v) ∈ mp) (hne : k1 ≠ k2)
    (hbest : ∀ e ∈ mp, score g (toPair e) ≤ score g (toPair (k1, v))) :
    sortMapGetResult mp g = "null" := by
  rw [sortMapGetResult_eq mp g (List.ne_nil_of_mem h1)]
  apply topOrNull_tie g (sortedPairs_sorted mp g) (sortedPairs_perm mp g)
    (List.mem_map_of_mem toPair h1) (List.mem_map_of_mem toPair h2)
  · intro h
    simp only [toPair, Pair.mk.injEq] at h
    exact hne h.1
  · intro x hx
    obtain ⟨e, he, rfl⟩ := List.mem_map.1 hx
    exact hbest e he
  · simp [score, toPair]

theorem maxValue?_spec {mp : CounterMap} {m : Int} (h : maxValue? mp = some m) :
    (∀ e ∈ mp, e.2 ≤ m) ∧ ∃ e ∈ mp, e.2 = m := by
  induction mp generalizing m with
  | nil => simp [maxValue?] at h
  | cons x rest ih =>
    obtain ⟨k, v⟩ := x
    cases hr : maxValue? rest with
    | none =>
      cases rest with
      | nil =>
        simp only [maxValue?, Option.some.injEq] at h
        subst h
        simp
      | cons y ys =>
        obtain ⟨k2, v2⟩ := y
        simp only [maxValue?] at hr
        split at hr <;> simp at hr
    | some m' =>
      simp only [maxValue?, hr, Option.some.injEq] at h
      obtain ⟨hle, e, he, hev⟩ := ih hr
      subst h
      constructor
      · intro e' he'
        rcases List.mem_cons.1 he' with h' | h'
        · rw [h']; exact le_max_left _ _
        · exact le_trans (hle e' h') (le_max_right _ _)
      · rcases le_total v m' with hvm | hvm
        · exact ⟨e, List.mem_cons_of_mem _ he, by rw [hev, max_eq_right hvm]⟩
        · exact ⟨(k, v), List.mem_cons_self _ _, by simp [max_eq_left hvm]⟩

theorem maxValue?_isSome {mp : CounterMap} (h : mp ≠ []) : ∃ m, maxValue? mp = some m := by
  cases mp with
  | nil => exact absurd rfl h
  | cons x rest =>
    obtain ⟨k, v⟩ := x
    cases hr : maxValue? rest with
    | none => exact ⟨v, by simp [maxValue?, hr]⟩
    | some m' => exact ⟨max v m', by simp [maxValue?, hr]⟩

/-- The top-two rule of `sortMapGetResult` and the count-of-maximum rule agree on every
list of entries. -/
theorem topTwo_eq_countMax (mp : CounterMap) :
    sortMapGetResult mp true = countMaxRule mp := by
  by_cases hne : mp = []
  · subst hne; rfl
  obtain ⟨m, hm⟩ := maxValue?_isSome hne
  obtain ⟨hle, e0, he0, he0v⟩ := maxValue?_spec hm
  rw [sortMapGetResult_eq mp true hne]
  have hperm := sortedPairs_perm mp true
  have hs := sortedPairs_sorted mp true
  have hcount : (mp.filter (fun e => decide (e.2 = m))).length =
      ((sortedPairs mp true).filter (fun x => decide (x.Value = m))).length := by
    rw [(hperm.filter _).length_eq, List.filter_map, List.length_map]
    rfl
  have hfind : ∃ e, mp.find? (fun e => decide (e.2 = m)) = some e ∧ e ∈ mp ∧ e.2 = m := by
    cases hf : mp.find? (fun e => decide (e.2 = m)) with
    | none =>
      have := List.find?_eq_none.1 hf e0 he0
      simp [he0v] at this
    | some e =>
      exact ⟨e, rfl, List.mem_of_find?_eq_some hf, by simpa using List.find?_some hf⟩
  obtain ⟨e, hfe, hemem, hev⟩ := hfind
  simp only [countMaxRule, hm, hfe, hcount]
  generalize sortedPairs mp true = s at hperm hs
  cases s with
  | nil =>
    exact absurd (hperm.mem_iff.2 (List.mem_map_of_mem toPair he0)) (List.not_mem_nil _)
  | cons a rest =>
    have hmax := sorted_head_max true hs
    have hav : a.Value = m := by
      obtain ⟨ea, hea, rfl⟩ := List.mem_map.1 (hperm.mem_iff.1 (List.mem_cons_self a rest))
      have h1 := hle ea hea
      have h2 := hmax (toPair e0) (hperm.mem_iff.2 (List.mem_map_of_mem toPair he0))
      simp only [score, if_true, toPair] at h2 ⊢
      omega
    have hes : toPair e ∈ a :: rest := hperm.mem_iff.2 (List.mem_map_of_mem toPair hemem)
    cases rest with
    | nil =>
      have hea : toPair e = a := by simpa using hes
      subst hea
      simp [topOrNull, List.filter_cons, hev, toPair]
    | cons b r2 =>
      by_cases hb : b.Value = m
      · simp [topOrNull, hav, hb]
      · have hrest : ∀ x ∈ r2, x.Value ≠ m := by
          intro x hx hxm
          have h1 := sorted_head_max true hs.of_cons x (List.mem_cons_of_mem _ hx)
          have h2 := hmax b (by simp)
          simp only [score, if_true] at h1 h2
          omega
        have hfil : r2.filter (fun x => decide (x.Value = m)) = [] := by
          rw [List.filter_eq_nil_iff]
          intro x hx
          simpa using hrest x hx
        have hea : toPair e = a := by
          rcases List.mem_cons.1 hes with h | h
          · exact h
          · rcases List.mem_cons.1 h with h' | h'
            · exact absurd (by rw [← h']; exact hev) hb
            · exact absurd (by exact hev) (hrest _ h')
        have hmb : ¬ m = b.Value := fun h => hb h.symm
        subst hea
        simp [topOrNull, List.filter_cons, hev, hb, hfil, hmb, toPair]


/-! ## Maps -/

theorem mapFind?_mapSet_same (m : CounterMap) (k : String) (v : Int) :
    mapFind? (mapSet m k v) k = some v := by
  induction m with
  | nil => simp [mapSet, mapFind?]
  | cons x rest ih =>
    obtain ⟨k', v'⟩ := x
    by_cases h : k' = k
    · simp [mapSet, mapFind?, h]
    · simp [mapSet, mapFind?, h, ih]

theorem mapFind?_mapSet_other (m : CounterMap) {k k' : String} (v : Int) (hne : k ≠ k') :
    mapFind? (mapSet m k v) k' = mapFind? m k' := by
  induction m with
  | nil => simp [mapSet, mapFind?, hne]
  | cons x rest ih =>
    obtain ⟨k2, v2⟩ := x
    by_cases h : k2 = k
    · subst h
      simp [mapSet, mapFind?, hne]
    · by_cases h2 : k2 = k'
      · subst h2
        simp [mapSet, mapFind?, h]
      · simp [mapSet, mapFind?, h, h2, ih]

theorem mapFind?_eq_none_iff (m : CounterMap) (k : String) :
    mapFind? m k = none ↔ k ∉ mapKeys m := by
  induction m with
  | nil => simp [mapFind?, mapKeys]
  | cons x rest ih =>
    obtain ⟨k', v'⟩ := x
    by_cases h : k' = k
    · simp [mapFind?, mapKeys, h]
    · have h' : ¬ k = k' := fun e => h e.symm
      simpa [mapFind?, mapKeys, h, h'] using ih

theorem mapKeys_mapSet (m : CounterMap) (k : String) (v : Int) :
    mapKeys (mapSet m k v) = if k ∈ mapKeys m then mapKeys m else mapKeys m ++ [k] := by
  induction m with
  | nil => simp [mapSet, mapKeys]
  | cons x rest ih =>
    obtain ⟨k', v'⟩ := x
    by_cases h : k' = k
    · simp [mapSet, mapKeys, h]
    · have h' : ¬ k = k' := fun e => h e.symm
      simp only [mapKeys] at ih
      simp only [mapSet, mapKeys, h, if_false, List.map_cons, ih, List.mem_cons, h', false_or]
      split <;> simp

theorem nodup_mapSet {m : CounterMap} (hnd : (mapKeys m).Nodup) (k : String) (v : Int) :
    (mapKeys (mapSet m k v)).Nodup := by
  rw [mapKeys_mapSet]
  split
  · exact hnd
  · rename_i h
    rw [List.nodup_append]
    refine ⟨hnd, List.nodup_singleton k, ?_⟩
    intro a ha hak
    rw [List.mem_singleton] at hak
    exact h (hak ▸ ha)

theorem mem_iff_mapFind? {m : CounterMap} (hnd : (mapKeys m).Nodup) (k : String) (v : Int) :
    (k, v) ∈ m ↔ mapFind? m k = some v := by
  induction m with
  | nil => simp [mapFind?]
  | cons x rest ih =>
    obtain ⟨k', v'⟩ := x
    simp only [mapKeys, List.map_cons, List.nodup_cons] at hnd
    have ih' := ih hnd.2
    by_cases h : k' = k
    · subst h
      have hnot : (k', v) ∉ rest := fun hm => hnd.1 (List.mem_map_of_mem Prod.fst hm)
      simp only [mapFind?, if_true, List.mem_cons, Prod.mk.injEq, true_and, hnot, or_false,
        Option.some.injEq]
      exact eq_comm
    · have h' : ¬ k = k' := fun e => h e.symm
      simp [mapFind?, h, h', ih']

/-- Two maps with the same entry for every key list the same entries. -/
theorem perm_of_mapFind?_eq {m1 m2 : CounterMap} (h1 : (mapKeys m1).Nodup)
    (h2 : (mapKeys m2).Nodup) (h : ∀ k, mapFind? m1 k = mapFind? m2 k) : List.Perm m1 m2 := by
  rw [List.perm_ext_iff_of_nodup (List.Nodup.of_map Prod.fst h1) (List.Nodup.of_map Prod.fst h2)]
  rintro ⟨k, v⟩
  rw [mem_iff_mapFind? h1, mem_iff_mapFind? h2, h k]

theorem mapSum_mapSet (m : CounterMap) (k : String) (v : Int) :
    mapSum (mapSet m k v) = mapSum m - mapGet m k + v := by
  induction m with
  | nil => simp [mapSet, mapSum, mapGet, mapFind?]
  | cons x rest ih =>
    obtain ⟨k', v'⟩ := x
    by_cases h : k' = k
    · simp only [mapSet, mapSum, mapGet, mapFind?, h, if_true, List.map_cons, List.sum_cons,
        Option.getD_some]
      ring
    · simp only [mapSum, mapGet] at ih
      simp only [mapSet, mapSum, mapGet, mapFind?, h, if_false, List.map_cons, List.sum_cons, ih]
      ring

theorem mapAbsSum_mapSet (m : CounterMap) (k : String) (v : Int) :
    mapAbsSum (mapSet m k v) = mapAbsSum m - |mapGet m k| + |v| := by
  induction m with
  | nil => simp [mapSet, mapAbsSum, mapGet, mapFind?]
  | cons x rest ih =>
    obtain ⟨k', v'⟩ := x
    by_cases h : k' = k
    · simp only [mapSet, mapAbsSum, mapGet, mapFind?, h, if_true, List.map_cons, List.sum_cons,
        Option.getD_some]
      ring
    · simp only [mapAbsSum, mapGet] at ih
      simp only [mapSet, mapAbsSum, mapGet, mapFind?, h, if_false, List.map_cons, List.sum_cons,
        ih]
      ring

theorem abs_mapGet_le (m : CounterMap) (k : String) : |mapGet m k| ≤ mapAbsSum m := by
  induction m with
  | nil => simp [mapGet, mapFind?, mapAbsSum]
  | cons x rest ih =>
    obtain ⟨k', v'⟩ := x
    have hnn : 0 ≤ mapAbsSum rest := by
      unfold mapAbsSum
      apply List.sum_nonneg
      intro a ha
      obtain ⟨e, _, rfl⟩ := List.mem_map.1 ha
      exact abs_nonneg _
    by_cases h : k' = k
    · simp only [mapGet, mapFind?, h, if_true, Option.getD_some, mapAbsSum, List.map_cons,
        List.sum_cons]
      unfold mapAbsSum at hnn
      omega
    · simp only [mapGet, mapAbsSum] at ih
      simp only [mapGet, mapFind?, h, if_false, mapAbsSum, List.map_cons, List.sum_cons]
      have := abs_nonneg v'
      omega


/-! ## One iteration of the loop -/

/-- An accepted line is folded into the three counters and adds no error. -/
theorem analyseLine_accepted (st : analyseState) {e : lineResult} {r : Record}
    (h : acceptedRecord e = some r) :
    analyseLine st e =
      { Errors := st.Errors
        speeches2013 :=
          if stringsContains r.date "2013" then mapIncr st.speeches2013 r.speaker
          else st.speeches2013
        speechesSecurity :=
          if stringsTrimSpace r.topic = "Innere Sicherheit" then
            mapIncr st.speechesSecurity r.speaker
          else st.speechesSecurity
        speechesWords := mapAdd st.speechesWords r.speaker r.wordCount } ∧
      rejectionError e = none := by
  obtain ⟨line, url, err⟩ := e
  cases err with
  | some msg => simp [acceptedRecord] at h
  | none =>
    simp only [acceptedRecord] at h
    simp only [analyseLine, rejectionError]
    generalize stringsSplit line ',' = l at h ⊢
    rcases l with _ | ⟨a, _ | ⟨b, _ | ⟨c, _ | ⟨d, _ | ⟨x, l⟩⟩⟩⟩⟩ <;> simp at h
    cases hp : strconvParseInt (stringsTrimSpace d) with
    | none => simp [hp] at h
    | some n =>
      simp only [hp, Option.some.injEq] at h
      subst h
      simp [posWordCount, posSpeaker, posDate, posTopic, hp]

/-- A rejected event leaves the counters alone and appends its error string. -/
theorem analyseLine_rejected (st : analyseState) {e : lineResult}
    (h : acceptedRecord e = none) :
    ∃ msg, rejectionError e = some msg ∧
      analyseLine st e = { st with Errors := st.Errors ++ [msg] } := by
  obtain ⟨line, url, err⟩ := e
  cases err with
  | some msg => exact ⟨msg, rfl, rfl⟩
  | none =>
    simp only [acceptedRecord] at h
    simp only [analyseLine, rejectionError]
    generalize stringsSplit line ',' = l at h ⊢
    rcases l with _ | ⟨a, _ | ⟨b, _ | ⟨c, _ | ⟨d, _ | ⟨x, l⟩⟩⟩⟩⟩ <;> simp at h ⊢
    cases hp : strconvParseInt (stringsTrimSpace d) with
    | none => simp [posWordCount, hp]
    | some n => simp [hp] at h

/-- An event is accepted exactly when `analyseLines` parses it: no error, four fields,
the trimmed fourth field an integer. -/
theorem acceptedRecord_isSome_iff (e : lineResult) :
    (acceptedRecord e).isSome = true ↔
      e.err = none ∧ (stringsSplit e.line ',').length = 4 ∧
        (strconvParseInt
          (stringsTrimSpace ((stringsSplit e.line ',').getD posWordCount ""))).isSome = true := by
  obtain ⟨line, url, err⟩ := e
  cases err with
  | some msg => simp [acceptedRecord]
  | none =>
    simp only [acceptedRecord]
    generalize stringsSplit line ',' = l
    rcases l with _ | ⟨a, _ | ⟨b, _ | ⟨c, _ | ⟨d, _ | ⟨x, l⟩⟩⟩⟩⟩ <;> simp
    cases hp : strconvParseInt (stringsTrimSpace d) <;> simp [posWordCount, hp]


/-! ## The loop as a sequence of map updates -/

theorem wrapInt_add_wrapInt (x d : Int) : wrapInt (wrapInt x + d) = wrapInt (x + d) := by
  unfold wrapInt
  omega

theorem wrapInt_of_abs_lt {x : Int} (h : |x| < 9223372036854775808) : wrapInt x = x := by
  unfold wrapInt
  rw [abs_lt] at h
  omega

theorem applyUpd_cons (w : Int → Int) (m : CounterMap) (u : String × Int)
    (us : List (String × Int)) :
    applyUpd w m (u :: us) = applyUpd w (mapSet m u.1 (w (mapGet m u.1 + u.2))) us := rfl

theorem foldl_analyseLine_words (lines : List lineResult) (st : analyseState) :
    (lines.foldl analyseLine st).speechesWords =
      applyUpd wrapInt st.speechesWords (wordsUpdates lines) := by
  induction lines generalizing st with
  | nil => rfl
  | cons e rest ih =>
    rw [List.foldl_cons, ih]
    cases h : acceptedRecord e with
    | none =>
      obtain ⟨msg, _, hst⟩ := analyseLine_rejected st h
      simp [hst, wordsUpdates, acceptedRecords, List.filterMap_cons, h]
    | some r =>
      rw [(analyseLine_accepted st h).1]
      simp [wordsUpdates, acceptedRecords, List.filterMap_cons, h, applyUpd_cons, mapAdd]

theorem foldl_analyseLine_2013 (lines : List lineResult) (st : analyseState) :
    (lines.foldl analyseLine st).speeches2013 =
      applyUpd id st.speeches2013 (in2013Updates lines) := by
  induction lines generalizing st with
  | nil => rfl
  | cons e rest ih =>
    rw [List.foldl_cons, ih]
    cases h : acceptedRecord e with
    | none =>
      obtain ⟨msg, _, hst⟩ := analyseLine_rejected st h
      simp [hst, in2013Updates, acceptedRecords, List.filterMap_cons, h]
    | some r =>
      rw [(analyseLine_accepted st h).1]
      by_cases hc : stringsContains r.date "2013" = true
      · simp [in2013Updates, acceptedRecords, List.filterMap_cons, h, applyUpd_cons, mapIncr,
          hc, List.filter_cons]
      · simp [in2013Updates, acceptedRecords, List.filterMap_cons, h, hc, List.filter_cons]

theorem foldl_analyseLine_security (lines : List lineResult) (st : analyseState) :
    (lines.foldl analyseLine st).speechesSecurity =
      applyUpd id st.speechesSecurity (securityUpdates lines) := by
  induction lines generalizing st with
  | nil => rfl
  | cons e rest ih =>
    rw [List.foldl_cons, ih]
    cases h : acceptedRecord e with
    | none =>
      obtain ⟨msg, _, hst⟩ := analyseLine_rejected st h
      simp [hst, securityUpdates, acceptedRecords, List.filterMap_cons, h]
    | some r =>
      rw [(analyseLine_accepted st h).1]
      by_cases hc : stringsTrimSpace r.topic = "Innere Sicherheit"
      · simp [securityUpdates, acceptedRecords, List.filterMap_cons, h, applyUpd_cons, mapIncr,
          hc, List.filter_cons]
      · simp [securityUpdates, acceptedRecords, List.filterMap_cons, h, hc, List.filter_cons]

theorem foldl_analyseLine_errors (lines : List lineResult) (st : analyseState) :
    (lines.foldl analyseLine st).Errors = st.Errors ++ lines.filterMap rejectionError := by
  induction lines generalizing st with
  | nil => simp
  | cons e rest ih =>
    rw [List.foldl_cons, ih]
    cases h : acceptedRecord e with
    | none =>
      obtain ⟨msg, hmsg, hst⟩ := analyseLine_rejected st h
      simp [hst, List.filterMap_cons, hmsg]
    | some r =>
      rw [(analyseLine_accepted st h).1]
      simp [List.filterMap_cons, (analyseLine_accepted st h).2]

theorem nodup_applyUpd (w : Int → Int) (us : List (String × Int)) {m : CounterMap}
    (hnd : (mapKeys m).Nodup) : (mapKeys (applyUpd w m us)).Nodup := by
  induction us generalizing m with
  | nil => exact hnd
  | cons u us ih =>
    rw [applyUpd_cons]
    exact ih (nodup_mapSet hnd _ _)

/-- The entry of key `k` after a sequence of updates: untouched when no update names
`k`, otherwise the old value plus all the amounts for `k`, passed through `w` once. -/
theorem mapFind?_applyUpd (w : Int → Int) (hw : ∀ x d, w (w x + d) = w (x + d))
    (us : List (String × Int)) (m : CounterMap) (k : String) :
    mapFind? (applyUpd w m us) k =
      if deltas k us = [] then mapFind? m k
      else some (w (mapGet m k + (deltas k us).sum)) := by
  induction us generalizing m with
  | nil => simp [applyUpd, deltas]
  | cons u us ih =>
    rw [applyUpd_cons, ih]
    by_cases hk : u.1 = k
    · have hd : deltas k (u :: us) = u.2 :: deltas k us := by
        simp [deltas, List.filter_cons, hk]
      rw [hd]
      simp only [reduceCtorEq, if_false, List.sum_cons]
      subst hk
      have hg : mapGet (mapSet m u.1 (w (mapGet m u.1 + u.2))) u.1 = w (mapGet m u.1 + u.2) := by
        simp [mapGet, mapFind?_mapSet_same]
      by_cases he : deltas u.1 us = []
      · simp [he, mapFind?_mapSet_same]
      · simp only [he, if_false, hg, hw, Option.some.injEq]
        rw [add_assoc]
    · have hd : deltas k (u :: us) = deltas k us := by
        simp [deltas, List.filter_cons, hk]
      rw [hd]
      simp [mapGet, mapFind?_mapSet_other m _ hk]

theorem deltas_perm {us vs : List (String × Int)} (h : List.Perm us vs) (k : String) :
    List.Perm (deltas k us) (deltas k vs) :=
  (h.filter _).map _

/-- Updates applied in two different orders produce the same entry for every key. -/
theorem mapFind?_applyUpd_perm (w : Int → Int) (hw : ∀ x d, w (w x + d) = w (x + d))
    {us vs : List (String × Int)} (h : List.Perm us vs) (m : CounterMap) (k : String) :
    mapFind? (applyUpd w m us) k = mapFind? (applyUpd w m vs) k := by
  rw [mapFind?_applyUpd w hw, mapFind?_applyUpd w hw]
  have hp := deltas_perm h k
  have hs : (deltas k us).sum = (deltas k vs).sum := hp.sum_eq
  have hn : deltas k us = [] ↔ deltas k vs = [] := by
    constructor
    · intro h0; rw [h0] at hp; exact List.nil_perm.1 hp
    · intro h0; rw [h0] at hp; exact List.perm_nil.1 hp
  simp only [hn, hs]


/-! ## The rank selector -/

/-- C1: for a map with distinct keys in which key `k` holds value `v`: when the value of
every other key is strictly smaller than `v`, `sortMapGetResult` with `getFirst = true`
(MAX) returns `k`; when the value of every other key is strictly greater than `v`,
`sortMapGetResult` with `getFirst = false` (MIN) returns `k`; and a map with a single
entry returns its only key in either direction. -/
theorem sortMapGetResult_unique_winner (mp : CounterMap) (k : String) (v : Int)
    (hnd : (mapKeys mp).Nodup) (hk : (k, v) ∈ mp) :
    ((∀ e ∈ mp, e.1 ≠ k → e.2 < v) → sortMapGetResult mp true = k) ∧
    ((∀ e ∈ mp, e.1 ≠ k → v < e.2) → sortMapGetResult mp false = k) ∧
    (mp.length = 1 → ∀ getFirst, sortMapGetResult mp getFirst = k) := by
  refine ⟨fun h => ?_, fun h => ?_, fun h g => ?_⟩
  · apply sortMapGetResult_best true mp k v hnd hk
    intro e he hek
    simpa [score, toPair] using h e he hek
  · apply sortMapGetResult_best false mp k v hnd hk
    intro e he hek
    simpa [score, toPair] using h e he hek
  · apply sortMapGetResult_best g mp k v hnd hk
    intro e he hek
    obtain ⟨x, hx⟩ := List.length_eq_one.1 h
    rw [hx, List.mem_singleton] at he hk
    exact absurd (by rw [he, ← hk]) hek

theorem sortMapGetResult_unique_winner_witness :
    sortMapGetResult [("A", 1), ("B", 3), ("C", 2)] true = "B" ∧
    sortMapGetResult [("A", 1), ("B", 3), ("C", 2)] false = "A" ∧
    sortMapGetResult [("A", -7)] true = "A" :=
  ⟨(sortMapGetResult_unique_winner [("A", 1), ("B", 3), ("C", 2)] "B" 3
      (by decide) (by decide)).1 (by decide),
    (sortMapGetResult_unique_winner [("A", 1), ("B", 3), ("C", 2)] "A" 1
      (by decide) (by decide)).2.1 (by decide),
    (sortMapGetResult_unique_winner [("A", -7)] "A" (-7)
      (by decide) (by decide)).2.2 (by decide) true⟩

/-- C2: when two different keys both hold the best value of a map (the greatest for
`getFirst = true`, the smallest for `getFirst = false`), `sortMapGetResult` returns
"null", whatever the other entries are and however many more keys hold that value. -/
theorem sortMapGetResult_tie_is_null (mp : CounterMap) (getFirst : Bool) (k1 k2 : String)
    (v : Int) (h1 : (k1, v) ∈ mp) (h2 : (k2, v) ∈ mp) (hne : k1 ≠ k2)
    (hbest : ∀ e ∈ mp, if getFirst = true then e.2 ≤ v else v ≤ e.2) :
    sortMapGetResult mp getFirst = "null" := by
  apply sortMapGetResult_null_of_tie getFirst mp k1 k2 v h1 h2 hne
  intro e he
  have := hbest e he
  cases getFirst <;> simp [score, toPair] at this ⊢ <;> exact this

theorem sortMapGetResult_tie_is_null_witness :
    (analyseLoop scenarioD).speechesWords = [("A", 100), ("B", 100)] ∧
    sortMapGetResult [("A", 100), ("B", 100)] false = "null" ∧
    (analyseLines scenarioD).LeastWordy = "null" ∧
    sortMapGetResult [("A", 5), ("B", 1), ("C", 5), ("D", 5)] true = "null" :=
  ⟨by decide,
    sortMapGetResult_tie_is_null [("A", 100), ("B", 100)] false "A" "B" 100
      (by decide) (by decide) (by decide) (by decide),
    by decide,
    sortMapGetResult_tie_is_null [("A", 5), ("B", 1), ("C", 5), ("D", 5)] true "A" "C" 5
      (by decide) (by decide) (by decide) (by decide)⟩

/-- C9: `sortMapGetResult` of the empty map is "null" for either direction, and a run
that receives no event sends "null" for all three results with no error. -/
theorem sortMapGetResult_empty :
    (∀ getFirst, sortMapGetResult [] getFirst = "null") ∧
    analyseLines [] =
      { MostSpeeches := "null", MostSecurity := "null", LeastWordy := "null", Errors := [] } :=
  ⟨fun _ => rfl, rfl⟩

/-- C10 (as amended): on every map the top-two tie rule of `sortMapGetResult` returns
the same result as the rule that counts the entries holding the maximum value. -/
theorem topTwo_rule_eq_countMax_rule (mp : CounterMap) :
    sortMapGetResult mp true = countMaxRule mp :=
  topTwo_eq_countMax mp

/-- C10 (as stated) fails: no map in which three or more entries share the maximum
value makes `sortMapGetResult` and the count-of-maximum rule return different results;
on such a map, for instance A, B and C at 5 and D at 1, both return "null". -/
theorem no_map_separates_the_rules :
    (¬ ∃ mp : CounterMap, (mapKeys mp).Nodup ∧
      (∃ m, maxValue? mp = some m ∧ 3 ≤ (mp.filter (fun e => e.2 = m)).length) ∧
      sortMapGetResult mp true ≠ countMaxRule mp) ∧
    sortMapGetResult [("A", 5), ("B", 5), ("C", 5), ("D", 1)] true = "null" ∧
    countMaxRule [("A", 5), ("B", 5), ("C", 5), ("D", 1)] = "null" := by
  refine ⟨?_, by decide, by decide⟩
  rintro ⟨mp, _, _, h⟩
  exact h (topTwo_eq_countMax mp)


/-! ## The aggregator -/

theorem wrapInt_mapSum_applyUpd (us : List (String × Int)) (m : CounterMap) :
    wrapInt (mapSum (applyUpd wrapInt m us)) = wrapInt (mapSum m + (us.map Prod.snd).sum) := by
  induction us generalizing m with
  | nil => simp [applyUpd]
  | cons u us ih =>
    rw [applyUpd_cons, ih, mapSum_mapSet, List.map_cons, List.sum_cons]
    generalize mapSum m = a
    generalize mapGet m u.1 = b
    generalize (us.map Prod.snd).sum = c
    generalize u.2 = d
    unfold wrapInt
    omega

theorem mapAbsSum_nonneg (m : CounterMap) : 0 ≤ mapAbsSum m := by
  unfold mapAbsSum
  apply List.sum_nonneg
  intro a ha
  obtain ⟨e, _, rfl⟩ := List.mem_map.1 ha
  exact abs_nonneg _

theorem mapSum_applyUpd_of_bound (us : List (String × Int)) (m : CounterMap)
    (h : mapAbsSum m + (us.map (fun u => |u.2|)).sum < 9223372036854775808) :
    mapSum (applyUpd wrapInt m us) = mapSum m + (us.map Prod.snd).sum := by
  induction us generalizing m with
  | nil => simp [applyUpd]
  | cons u us ih =>
    simp only [List.map_cons, List.sum_cons] at h ⊢
    have hrest : 0 ≤ (us.map (fun u => |u.2|)).sum := by
      apply List.sum_nonneg
      intro a ha
      obtain ⟨e, _, rfl⟩ := List.mem_map.1 ha
      exact abs_nonneg _
    have hg := abs_mapGet_le m u.1
    have htri : |mapGet m u.1 + u.2| ≤ |mapGet m u.1| + |u.2| := abs_add _ _
    have hw : wrapInt (mapGet m u.1 + u.2) = mapGet m u.1 + u.2 :=
      wrapInt_of_abs_lt (by omega)
    rw [applyUpd_cons, hw, ih, mapSum_mapSet]
    · ring
    · rw [mapAbsSum_mapSet]
      omega

theorem wordsUpdates_snd (lines : List lineResult) :
    (wordsUpdates lines).map Prod.snd = (acceptedRecords lines).map Record.wordCount := by
  simp [wordsUpdates, List.map_map, Function.comp_def]

theorem wordsUpdates_abs (lines : List lineResult) :
    (wordsUpdates lines).map (fun u => |u.2|) =
      (acceptedRecords lines).map (fun r => |r.wordCount|) := by
  simp [wordsUpdates, List.map_map, Function.comp_def]

/-- C3 (as amended): after `analyseLines` has folded any sequence of events, the sum of
the values of `speechesWords` and the sum of the word counts of the accepted lines are
the same Go `int` (they agree modulo `2^64`), and they are equal as integers whenever
the absolute values of the accepted word counts add up to less than `2^63`; rejected
lines and source failures are not part of either sum. -/
theorem wordCount_conservation (lines : List lineResult) :
    wrapInt (mapSum (analyseLoop lines).speechesWords) =
      wrapInt (((acceptedRecords lines).map Record.wordCount).sum) ∧
    (((acceptedRecords lines).map (fun r => |r.wordCount|)).sum < 2 ^ 63 →
      mapSum (analyseLoop lines).speechesWords =
        ((acceptedRecords lines).map Record.wordCount).sum) := by
  constructor
  · rw [analyseLoop, foldl_analyseLine_words, wrapInt_mapSum_applyUpd, wordsUpdates_snd]
    simp [analyseState.init, mapSum]
  · intro h
    rw [analyseLoop, foldl_analyseLine_words, mapSum_applyUpd_of_bound, wordsUpdates_snd]
    · simp [analyseState.init, mapSum]
    · rw [wordsUpdates_abs]
      simpa [analyseState.init, mapAbsSum] using h

theorem wordCount_conservation_witness :
    ((acceptedRecords scenarioA).map (fun r => |r.wordCount|)).sum < 2 ^ 63 ∧
    mapSum (analyseLoop scenarioA).speechesWords =
      ((acceptedRecords scenarioA).map Record.wordCount).sum :=
  ⟨by decide, (wordCount_conservation scenarioA).2 (by decide)⟩

/-- C3 (as stated) fails: two accepted lines of speaker A with 9223372036854775807 words
each leave the total -2 in `speechesWords`, while their word counts add up to
18446744073709551614. -/
theorem wordCount_conservation_overflow :
    acceptedRecords overflowLines =
      [{ speaker := "A", topic := "Economy", date := "2013-01-01",
         wordCount := 9223372036854775807 },
       { speaker := "A", topic := "Economy", date := "2013-01-02",
         wordCount := 9223372036854775807 }] ∧
    (analyseLoop overflowLines).speechesWords = [("A", -2)] ∧
    mapSum (analyseLoop overflowLines).speechesWords ≠
      ((acceptedRecords overflowLines).map Record.wordCount).sum := by
  decide

/-- C4: a line without error that does not split on "," into exactly four fields, or
whose fourth field (trimmed, as `analyseLines` parses it) is not an integer, leaves
`speeches2013`, `speechesSecurity` and `speechesWords` as they were and appends one error
string, which contains the URL of the source and the text of the line. -/
theorem rejected_line_changes_no_counter (st : analyseState) (line : lineResult)
    (herr : line.err = none)
    (hbad : (stringsSplit line.line ',').length ≠ 4 ∨
      strconvParseInt
        (stringsTrimSpace ((stringsSplit line.line ',').getD posWordCount "")) = none) :
    (analyseLine st line).speeches2013 = st.speeches2013 ∧
    (analyseLine st line).speechesSecurity = st.speechesSecurity ∧
    (analyseLine st line).speechesWords = st.speechesWords ∧
    ∃ msg, (analyseLine st line).Errors = st.Errors ++ [msg] ∧
      (∃ a b, msg = a ++ line.url ++ b) ∧ (∃ a b, msg = a ++ line.line ++ b) := by
  by_cases hlen : (stringsSplit line.line ',').length = 4
  · have hp := hbad.resolve_left (fun h => h hlen)
    simp only [analyseLine, herr, hlen, ne_eq, not_true_eq_false, if_false, hp, true_and]
    refine ⟨errWordCount line.url line.line, rfl, ?_, ?_⟩
    · exact ⟨"Word count invalid format. URL: '", "' Line: '" ++ line.line ++ "'", by
        simp [errWordCount, String.append_assoc]⟩
    · exact ⟨"Word count invalid format. URL: '" ++ line.url ++ "' Line: '", "'", by
        simp [errWordCount, String.append_assoc]⟩
  · simp only [analyseLine, herr, hlen, ne_eq, not_false_eq_true, if_true, true_and]
    refine ⟨errNotEnough line.url line.line, rfl, ?_, ?_⟩
    · exact ⟨"Not enough elements. URL: '", "' Line: '" ++ line.line ++ "'", by
        simp [errNotEnough, String.append_assoc]⟩
    · exact ⟨"Not enough elements. URL: '" ++ line.url ++ "' Line: '", "'", by
        simp [errNotEnough, String.append_assoc]⟩

theorem rejected_line_changes_no_counter_witness :
    (analyseLine (analyseLoop scenarioA) scenarioCLine).speechesWords =
      (analyseLoop scenarioA).speechesWords ∧
    mapGet (analyseLoop (scenarioA ++ [scenarioCLine])).speechesWords "A" = 100 ∧
    mapGet (analyseLoop (scenarioA ++ [scenarioCLine])).speechesWords "B" = 50 ∧
    (analyseLoop (scenarioA ++ [scenarioCLine])).Errors =
      ["Word count invalid format. URL: 'u' Line: 'A,Economy,2013,notanumber'"] ∧
    (analyseLoop ([scenarioCLine] ++ scenarioA)).speechesWords = [("A", 100), ("B", 50)] :=
  ⟨(rejected_line_changes_no_counter (analyseLoop scenarioA) scenarioCLine rfl
      (Or.inr (by decide))).2.2.1,
    by decide, by decide, by decide, by decide⟩


theorem containsChars_iff (sub s : List Char) :
    containsChars sub s = true ↔ List.IsInfix sub s := by
  induction s with
  | nil => simp [containsChars]
  | cons c cs ih =>
    rw [containsChars, Bool.or_eq_true, ih, List.infix_cons_iff, List.isPrefixOf_iff_prefix]

/-- The model of `strings.Contains` decides whether the second string occurs inside
the first. -/
theorem stringsContains_iff (s sub : String) :
    stringsContains s sub = true ↔ List.IsInfix sub.data s.data :=
  containsChars_iff sub.data s.data

theorem deltas_ones (recs : List Record) (s : String) :
    deltas s (recs.map (fun r => (r.speaker, (1 : Int)))) =
      List.replicate (recs.countP (fun r => decide (r.speaker = s))) 1 := by
  induction recs with
  | nil => rfl
  | cons r rest ih =>
    simp only [deltas] at ih
    by_cases h : r.speaker = s
    · simp [deltas, List.filter_cons, List.countP_cons, h, ih, List.replicate_succ]
    · simp [deltas, List.filter_cons, List.countP_cons, h, ih]

/-- A counter that starts empty and is incremented once for the speaker of each of the
records `recs` holds, for every speaker, the number of those records, and has no entry
for a speaker without one. -/
theorem mapFind?_counter (recs : List Record) (s : String) :
    mapFind? (applyUpd id [] (recs.map (fun r => (r.speaker, (1 : Int))))) s =
      if recs.countP (fun r => decide (r.speaker = s)) = 0 then none
      else some ((recs.countP (fun r => decide (r.speaker = s)) : Nat) : Int) := by
  rw [mapFind?_applyUpd id (fun _ _ => rfl), deltas_ones]
  generalize recs.countP (fun r => decide (r.speaker = s)) = n
  cases n with
  | zero => simp [mapFind?]
  | succ n =>
    simp only [List.replicate_succ, reduceCtorEq, if_false, mapGet, mapFind?,
      Option.getD_none, List.sum_cons, List.sum_replicate, smul_eq_mul, mul_one, id,
      Nat.add_one_ne_zero, Option.some.injEq]
    push_cast
    ring

theorem counter_spec (recs : List Record) (p : Record → Bool) (s : String) :
    mapGet (applyUpd id [] ((recs.filter p).map (fun r => (r.speaker, (1 : Int))))) s =
      ((recs.countP (fun r => p r && decide (r.speaker = s)) : Nat) : Int) ∧
    (s ∉ mapKeys (applyUpd id [] ((recs.filter p).map (fun r => (r.speaker, (1 : Int))))) ↔
      recs.countP (fun r => p r && decide (r.speaker = s)) = 0) := by
  have h := mapFind?_counter (recs.filter p) s
  rw [List.countP_filter] at h
  have hc : List.countP (fun a => decide (a.speaker = s) && p a) recs =
      List.countP (fun r => p r && decide (r.speaker = s)) recs := by
    congr 1
    funext r
    exact Bool.and_comm _ _
  rw [hc] at h
  rw [← mapFind?_eq_none_iff, mapGet, h]
  by_cases h0 : List.countP (fun r => p r && decide (r.speaker = s)) recs = 0
  · simp [h0]
  · simp [h0]

/-- C6: after any run, `speeches2013[s]` is the number of accepted lines whose first
field is `s` and whose date field contains "2013"; `s` has no entry exactly when that
number is zero; and an accepted line whose date field does not contain "2013" leaves
`speeches2013` as it was. -/
theorem speeches2013_counts (lines : List lineResult) (s : String) :
    mapGet (analyseLoop lines).speeches2013 s =
      (((acceptedRecords lines).countP
        (fun r => decide (List.IsInfix "2013".data r.date.data ∧ r.speaker = s)) : Nat) : Int) ∧
    (s ∉ mapKeys (analyseLoop lines).speeches2013 ↔
      (acceptedRecords lines).countP
        (fun r => decide (List.IsInfix "2013".data r.date.data ∧ r.speaker = s)) = 0) ∧
    (∀ (st : analyseState) (e : lineResult) (r : Record), acceptedRecord e = some r →
      ¬ List.IsInfix "2013".data r.date.data →
      (analyseLine st e).speeches2013 = st.speeches2013) := by
  have hc : (fun r : Record =>
        decide (List.IsInfix "2013".data r.date.data ∧ r.speaker = s)) =
      (fun r => stringsContains r.date "2013" && decide (r.speaker = s)) := by
    funext r
    rw [Bool.decide_and]
    congr 1
    rw [Bool.eq_iff_iff, decide_eq_true_iff, stringsContains_iff]
  have h := counter_spec (acceptedRecords lines) (fun r => stringsContains r.date "2013") s
  rw [hc, analyseLoop, foldl_analyseLine_2013]
  refine ⟨h.1, h.2, ?_⟩
  intro st e r hr hno
  have hf : stringsContains r.date "2013" = false := by
    rw [← Bool.not_eq_true, stringsContains_iff]
    exact hno
  rw [(analyseLine_accepted st hr).1]
  simp [hf]


theorem speeches2013_counts_witness :
    mapGet (analyseLoop scenarioA).speeches2013 "A" = 1 ∧
    "B" ∉ mapKeys (analyseLoop scenarioA).speeches2013 ∧
    (analyseLine (analyseLoop scenarioA) (rawLine "u" "B,Other,2012-01-01,50")).speeches2013 =
      (analyseLoop scenarioA).speeches2013 :=
  ⟨(speeches2013_counts scenarioA "A").1.trans (by decide),
    (speeches2013_counts scenarioA "B").2.1.2 (by decide),
    (speeches2013_counts scenarioA "B").2.2 (analyseLoop scenarioA)
      (rawLine "u" "B,Other,2012-01-01,50")
      { speaker := "B", topic := "Other", date := "2012-01-01", wordCount := 50 }
      (by decide) (by decide)⟩

/-- C7: after any run, `speechesSecurity[s]` is the number of accepted lines whose first
field is `s` and whose topic field, white space around it removed, equals
"Innere Sicherheit"; `s` has no entry exactly when that number is zero; and an accepted
line whose trimmed topic is anything else leaves `speechesSecurity` as it was. -/
theorem speechesSecurity_counts (lines : List lineResult) (s : String) :
    mapGet (analyseLoop lines).speechesSecurity s =
      (((acceptedRecords lines).countP
        (fun r => decide (stringsTrimSpace r.topic = "Innere Sicherheit" ∧ r.speaker = s)) :
          Nat) : Int) ∧
    (s ∉ mapKeys (analyseLoop lines).speechesSecurity ↔
      (acceptedRecords lines).countP
        (fun r => decide (stringsTrimSpace r.topic = "Innere Sicherheit" ∧ r.speaker = s)) = 0) ∧
    (∀ (st : analyseState) (e : lineResult) (r : Record), acceptedRecord e = some r →
      stringsTrimSpace r.topic ≠ "Innere Sicherheit" →
      (analyseLine st e).speechesSecurity = st.speechesSecurity) := by
  have hc : (fun r : Record =>
        decide (stringsTrimSpace r.topic = "Innere Sicherheit" ∧ r.speaker = s)) =
      (fun r => decide (stringsTrimSpace r.topic = "Innere Sicherheit") &&
        decide (r.speaker = s)) := by
    funext r
    rw [Bool.decide_and]
  have h := counter_spec (acceptedRecords lines)
    (fun r => decide (stringsTrimSpace r.topic = "Innere Sicherheit")) s
  rw [hc, analyseLoop, foldl_analyseLine_security]
  refine ⟨h.1, h.2, ?_⟩
  intro st e r hr hno
  rw [(analyseLine_accepted st hr).1]
  simp [hno]

theorem speechesSecurity_counts_witness :
    mapGet (analyseLoop securityLines).speechesSecurity "C" = 2 ∧
    "A" ∉ mapKeys (analyseLoop securityLines).speechesSecurity ∧
    (analyseLine (analyseLoop scenarioA)
        (rawLine "v" "C,Innere Sicherheit2,2014-01-01,5")).speechesSecurity =
      (analyseLoop scenarioA).speechesSecurity :=
  ⟨(speechesSecurity_counts securityLines "C").1.trans (by decide),
    (speechesSecurity_counts securityLines "A").2.1.2 (by decide),
    (speechesSecurity_counts securityLines "A").2.2 (analyseLoop scenarioA)
      (rawLine "v" "C,Innere Sicherheit2,2014-01-01,5")
      { speaker := "C", topic := "Innere Sicherheit2", date := "2014-01-01", wordCount := 5 }
      (by decide) (by decide)⟩

theorem nodup_loop_2013 (lines : List lineResult) :
    (mapKeys (analyseLoop lines).speeches2013).Nodup := by
  rw [analyseLoop, foldl_analyseLine_2013]
  exact nodup_applyUpd id _ List.nodup_nil

theorem nodup_loop_security (lines : List lineResult) :
    (mapKeys (analyseLoop lines).speechesSecurity).Nodup := by
  rw [analyseLoop, foldl_analyseLine_security]
  exact nodup_applyUpd id _ List.nodup_nil

theorem nodup_loop_words (lines : List lineResult) :
    (mapKeys (analyseLoop lines).speechesWords).Nodup := by
  rw [analyseLoop, foldl_analyseLine_words]
  exact nodup_applyUpd wrapInt _ List.nodup_nil

theorem acceptedRecords_perm {xs ys : List lineResult} (h : List.Perm xs ys) :
    List.Perm (acceptedRecords xs) (acceptedRecords ys) :=
  h.filterMap _

/-- C5: two sequences of events that are permutations of one another leave the same
entry for every key in `speeches2013`, `speechesSecurity` and `speechesWords`, and give
the same `MostSpeeches`, `MostSecurity` and `LeastWordy`; their error lists hold the
same strings, possibly in another order. -/
theorem analyseLines_perm (xs ys : List lineResult) (h : List.Perm xs ys) :
    (∀ k, mapFind? (analyseLoop xs).speeches2013 k = mapFind? (analyseLoop ys).speeches2013 k) ∧
    (∀ k, mapFind? (analyseLoop xs).speechesSecurity k =
      mapFind? (analyseLoop ys).speechesSecurity k) ∧
    (∀ k, mapFind? (analyseLoop xs).speechesWords k = mapFind? (analyseLoop ys).speechesWords k) ∧
    (analyseLines xs).MostSpeeches = (analyseLines ys).MostSpeeches ∧
    (analyseLines xs).MostSecurity = (analyseLines ys).MostSecurity ∧
    (analyseLines xs).LeastWordy = (analyseLines ys).LeastWordy ∧
    List.Perm (analyseLines xs).Errors (analyseLines ys).Errors := by
  have hrec := acceptedRecords_perm h
  have h1 : ∀ k, mapFind? (analyseLoop xs).speeches2013 k =
      mapFind? (analyseLoop ys).speeches2013 k := by
    intro k
    simp only [analyseLoop, foldl_analyseLine_2013]
    exact mapFind?_applyUpd_perm id (fun _ _ => rfl) ((hrec.filter _).map _) _ k
  have h2 : ∀ k, mapFind? (analyseLoop xs).speechesSecurity k =
      mapFind? (analyseLoop ys).speechesSecurity k := by
    intro k
    simp only [analyseLoop, foldl_analyseLine_security]
    exact mapFind?_applyUpd_perm id (fun _ _ => rfl) ((hrec.filter _).map _) _ k
  have h3 : ∀ k, mapFind? (analyseLoop xs).speechesWords k =
      mapFind? (analyseLoop ys).speechesWords k := by
    intro k
    simp only [analyseLoop, foldl_analyseLine_words]
    exact mapFind?_applyUpd_perm wrapInt wrapInt_add_wrapInt (hrec.map _) _ k
  refine ⟨h1, h2, h3, ?_, ?_, ?_, ?_⟩
  · exact sortMapGetResult_perm
      (perm_of_mapFind?_eq (nodup_loop_2013 xs) (nodup_loop_2013 ys) h1) true
  · exact sortMapGetResult_perm
      (perm_of_mapFind?_eq (nodup_loop_security xs) (nodup_loop_security ys) h2) true
  · exact sortMapGetResult_perm
      (perm_of_mapFind?_eq (nodup_loop_words xs) (nodup_loop_words ys) h3) false
  · simp only [analyseLines, analyseLoop, foldl_analyseLine_errors, analyseState.init,
      List.nil_append]
    exact h.filterMap _

theorem analyseLines_perm_witness :
    (analyseLoop (scenarioCLine :: securityLines)).speechesWords =
      [("A", 100), ("B", 50), ("C", 35)] ∧
    (analyseLoop (securityLines.reverse ++ [scenarioCLine])).speechesWords =
      [("C", 35), ("B", 50), ("A", 100)] ∧
    (analyseLines (scenarioCLine :: securityLines)).LeastWordy =
      (analyseLines (securityLines.reverse ++ [scenarioCLine])).LeastWordy :=
  ⟨by decide, by decide,
    (analyseLines_perm (scenarioCLine :: securityLines) (securityLines.reverse ++ [scenarioCLine])
      ((List.perm_append_singleton scenarioCLine securityLines).symm.trans
        ((List.reverse_perm securityLines).symm.append_right [scenarioCLine]))).2.2.2.2.2.1⟩

/-- C8: the value `analyseLines` sends pairs each result with its counter and direction:
`MostSpeeches` is `sortMapGetResult` of `speeches2013` with `getFirst = true`,
`MostSecurity` that of `speechesSecurity` with `getFirst = true`, `LeastWordy` that of
`speechesWords` with `getFirst = false`, and `Errors` is the error list of the loop.  So
a speaker whose total is strictly smaller than every other speaker's is `LeastWordy`, and
a speaker with strictly more target-year speeches than every other is `MostSpeeches`.
The two lines of scenario A give "A", "null", "B" and no error. -/
theorem analyseLines_snapshot (lines : List lineResult) :
    (analyseLines lines).MostSpeeches =
      sortMapGetResult (analyseLoop lines).speeches2013 true ∧
    (analyseLines lines).MostSecurity =
      sortMapGetResult (analyseLoop lines).speechesSecurity true ∧
    (analyseLines lines).LeastWordy =
      sortMapGetResult (analyseLoop lines).speechesWords false ∧
    (analyseLines lines).Errors = (analyseLoop lines).Errors ∧
    (∀ s v, (s, v) ∈ (analyseLoop lines).speechesWords →
      (∀ e ∈ (analyseLoop lines).speechesWords, e.1 ≠ s → v < e.2) →
      (analyseLines lines).LeastWordy = s) ∧
    (∀ s v, (s, v) ∈ (analyseLoop lines).speeches2013 →
      (∀ e ∈ (analyseLoop lines).speeches2013, e.1 ≠ s → e.2 < v) →
      (analyseLines lines).MostSpeeches = s) ∧
    analyseLines scenarioA =
      { MostSpeeches := "A", MostSecurity := "null", LeastWordy := "B", Errors := [] } := by
  refine ⟨rfl, rfl, rfl, rfl, ?_, ?_, by decide⟩
  · intro s v hs hbest
    apply sortMapGetResult_best false _ s v (nodup_loop_words lines) hs
    intro e he hes
    simpa [score, toPair] using hbest e he hes
  · intro s v hs hbest
    apply sortMapGetResult_best true _ s v (nodup_loop_2013 lines) hs
    intro e he hes
    simpa [score, toPair] using hbest e he hes

theorem analyseLines_snapshot_witness :
    (analyseLoop scenarioA).speechesWords = [("A", 100), ("B", 50)] ∧
    (analyseLines scenarioA).LeastWordy = "B" ∧
    (analyseLoop scenarioA).speeches2013 = [("A", 1)] ∧
    (analyseLines scenarioA).MostSpeeches = "A" :=
  ⟨by decide,
    (analyseLines_snapshot scenarioA).2.2.2.2.1 "B" 50 (by decide) (by decide),
    by decide,
    (analyseLines_snapshot scenarioA).2.2.2.2.2.1 "A" 1 (by decide) (by decide)⟩

/-! ## The sentinel -/

theorem mem_of_toPair_mem {mp : CounterMap} {p : Pair} (h : p ∈ mp.map toPair) :
    (p.Key, p.Value) ∈ mp := by
  obtain ⟨e, he, rfl⟩ := List.mem_map.1 h
  exact he

theorem score_le_iff (g : Bool) (e : String × Int) (k : String) (v : Int) :
    score g (toPair e) ≤ score g (toPair (k, v)) ↔ if g = true then e.2 ≤ v else v ≤ e.2 := by
  cases g <;> simp [score, toPair]

theorem score_lt_iff (g : Bool) (e : String × Int) (k : String) (v : Int) :
    score g (toPair e) < score g (toPair (k, v)) ↔ if g = true then e.2 < v else v < e.2 := by
  cases g <;> simp [score, toPair]

/-- When `sortMapGetResult` returns "null", the map is empty, or two different keys hold
the best value, or the one best entry has the key "null". -/
theorem sortMapGetResult_null_cases (mp : CounterMap) (g : Bool) (hnd : (mapKeys mp).Nodup)
    (h : sortMapGetResult mp g = "null") :
    mp = [] ∨
    (∃ k1 k2 v, k1 ≠ k2 ∧ (k1, v) ∈ mp ∧ (k2, v) ∈ mp ∧
      ∀ e ∈ mp, score g (toPair e) ≤ score g (toPair (k1, v))) ∨
    (∃ v, ("null", v) ∈ mp ∧
      ∀ e ∈ mp, e.1 ≠ "null" → score g (toPair e) < score g (toPair ("null", v))) := by
  by_cases hne : mp = []
  · exact Or.inl hne
  right
  rw [sortMapGetResult_eq mp g hne] at h
  have hperm := sortedPairs_perm mp g
  have hs := sortedPairs_sorted mp g
  have hndp : (mp.map toPair).Nodup := (List.Nodup.of_map Prod.fst hnd).map toPair_injective
  generalize sortedPairs mp g = s at h hperm hs
  have hnds : s.Nodup := hperm.nodup_iff.2 hndp
  have hin : ∀ e ∈ mp, toPair e ∈ s := fun e he =>
    hperm.mem_iff.2 (List.mem_map_of_mem toPair he)
  cases s with
  | nil =>
    cases mp with
    | nil => exact absurd rfl hne
    | cons x xs => exact absurd (hin x (List.mem_cons_self x xs)) (List.not_mem_nil _)
  | cons a rest =>
    have hmax := sorted_head_max g hs
    have ha : (a.Key, a.Value) ∈ mp := mem_of_toPair_mem (hperm.mem_iff.1 (List.mem_cons_self a rest))
    cases rest with
    | nil =>
      right
      simp only [topOrNull] at h
      refine ⟨a.Value, by rw [← h]; exact ha, ?_⟩
      intro e he hek
      have : toPair e = a := by simpa using hin e he
      exact absurd (by rw [← this] at h; exact h) hek
    | cons b r =>
      have hb : (b.Key, b.Value) ∈ mp :=
        mem_of_toPair_mem (hperm.mem_iff.1 (List.mem_cons_of_mem a (List.mem_cons_self b r)))
      by_cases hv : a.Value = b.Value
      · left
        refine ⟨a.Key, b.Key, a.Value, ?_, ha, by rw [hv]; exact hb, ?_⟩
        · intro hk
          have hab : a = b := by
            cases a; cases b
            simp only [Pair.mk.injEq]
            exact ⟨hk, hv⟩
          have hnot := (List.nodup_cons.1 hnds).1
          exact hnot (by rw [hab]; exact List.mem_cons_self b r)
        · intro e he
          exact hmax (toPair e) (hin e he)
      · right
        simp only [topOrNull, hv, if_false] at h
        refine ⟨a.Value, by rw [← h]; exact ha, ?_⟩
        intro e he hek
        have hes := hin e he
        have hea : toPair e ≠ a := by
          intro heq
          exact hek (by rw [← heq] at h; exact h)
        have hetail : toPair e ∈ b :: r := by
          rcases List.mem_cons.1 hes with h' | h'
          · exact absurd h' hea
          · exact h'
        have h1 := sorted_head_max g hs.of_cons (toPair e) hetail
        have h2 := hmax b (by simp)
        have h3 : score g a ≠ score g b := fun hsc => hv ((score_eq_iff g a b).1 hsc)
        have h4 : score g (toPair ("null", a.Value)) = score g a := by
          cases g <;> simp [score, toPair]
        omega

/-- C11 (as amended): for a map with distinct keys and either direction, when
`sortMapGetResult` returns "null" the map is empty, or two different keys hold the best
value, or the single best entry is that of a key which is itself the string "null"; and
a map whose single best entry has a key other than "null" never gives "null". -/
theorem sentinel_only_without_unique_winner (mp : CounterMap) (getFirst : Bool)
    (hnd : (mapKeys mp).Nodup) :
    (sortMapGetResult mp getFirst = "null" →
      mp = [] ∨
      (∃ k1 k2 v, k1 ≠ k2 ∧ (k1, v) ∈ mp ∧ (k2, v) ∈ mp ∧
        ∀ e ∈ mp, if getFirst = true then e.2 ≤ v else v ≤ e.2) ∨
      (∃ v, ("null", v) ∈ mp ∧
        ∀ e ∈ mp, e.1 ≠ "null" → if getFirst = true then e.2 < v else v < e.2)) ∧
    (∀ k v, k ≠ "null" → (k, v) ∈ mp →
      (∀ e ∈ mp, e.1 ≠ k → if getFirst = true then e.2 < v else v < e.2) →
      sortMapGetResult mp getFirst ≠ "null") := by
  constructor
  · intro h
    rcases sortMapGetResult_null_cases mp getFirst hnd h with h0 | ⟨k1, k2, v, hk, h1, h2, hb⟩ |
      ⟨v, h1, hb⟩
    · exact Or.inl h0
    · exact Or.inr (Or.inl ⟨k1, k2, v, hk, h1, h2,
        fun e he => (score_le_iff getFirst e k1 v).1 (hb e he)⟩)
    · exact Or.inr (Or.inr ⟨v, h1,
        fun e he hek => (score_lt_iff getFirst e "null" v).1 (hb e he hek)⟩)
  · intro k v hk hmem hbest
    rw [sortMapGetResult_best getFirst mp k v hnd hmem
      (fun e he hek => (score_lt_iff getFirst e k v).2 (hbest e he hek))]
    exact hk

theorem sentinel_only_without_unique_winner_witness :
    sortMapGetResult [("A", 2), ("B", 2), ("C", 1)] true = "null" ∧
    (∃ k1 k2 v, k1 ≠ k2 ∧ (k1, v) ∈ [("A", (2 : Int)), ("B", 2), ("C", 1)] ∧
        (k2, v) ∈ [("A", (2 : Int)), ("B", 2), ("C", 1)]) ∧
    sortMapGetResult [("A", 2), ("B", 5), ("C", 1)] true ≠ "null" :=
  ⟨by decide, ⟨"A", "B", 2, by decide, by decide, by decide⟩,
    (sentinel_only_without_unique_winner [("A", 2), ("B", 5), ("C", 1)] true (by decide)).2
      "B" 5 (by decide) (by decide) (by decide)⟩

/-- C11 (as stated) fails: in the map A = 1, null = 3 the speaker called "null" is the
only best entry for MAX, the two best-ranked values 3 and 1 differ, the map is not
empty, and `sortMapGetResult` returns "null". -/
theorem sentinel_is_also_a_key :
    sortMapGetResult nullSpeakerMap true = "null" ∧
    nullSpeakerMap ≠ [] ∧
    sortedPairs nullSpeakerMap true = [{ Key := "null", Value := 3 }, { Key := "A", Value := 1 }] ∧
    (∀ e ∈ nullSpeakerMap, e.1 ≠ "null" → e.2 < 3) := by
  decide


/-! ## Source failures and the error list -/

theorem acceptedRecord_of_err {e : lineResult} (h : e.err.isNone = false) :
    acceptedRecord e = none := by
  obtain ⟨line, url, err⟩ := e
  cases err with
  | none => simp at h
  | some msg => rfl

theorem acceptedRecords_filter (lines : List lineResult) :
    acceptedRecords (lines.filter (fun e => e.err.isNone)) = acceptedRecords lines := by
  induction lines with
  | nil => rfl
  | cons e rest ih =>
    simp only [acceptedRecords] at ih
    by_cases h : e.err.isNone = true
    · simp [acceptedRecords, List.filter_cons, h, List.filterMap_cons, ih]
    · have h' : e.err.isNone = false := by
        cases hh : e.err.isNone
        · rfl
        · exact absurd hh h
      simp [acceptedRecords, List.filter_cons, h', List.filterMap_cons,
        acceptedRecord_of_err h', ih]

/-- The three maps of the loop are determined by the accepted records of the run. -/
theorem analyseLoop_maps_of_records {xs ys : List lineResult}
    (h : acceptedRecords xs = acceptedRecords ys) :
    (analyseLoop xs).speeches2013 = (analyseLoop ys).speeches2013 ∧
    (analyseLoop xs).speechesSecurity = (analyseLoop ys).speechesSecurity ∧
    (analyseLoop xs).speechesWords = (analyseLoop ys).speechesWords := by
  simp only [analyseLoop, foldl_analyseLine_2013, foldl_analyseLine_security,
    foldl_analyseLine_words, in2013Updates, securityUpdates, wordsUpdates, h, and_self]

theorem analyseLine_errors (st : analyseState) (e : lineResult) :
    (analyseLine st e).Errors = st.Errors ++ (rejectionError e).toList := by
  cases h : acceptedRecord e with
  | none =>
    obtain ⟨msg, hmsg, hst⟩ := analyseLine_rejected st h
    simp [hst, hmsg]
  | some r =>
    obtain ⟨hst, hno⟩ := analyseLine_accepted st h
    simp [hst, hno]

theorem rejectionError_isSome (e : lineResult) :
    (rejectionError e).isSome = (acceptedRecord e).isNone := by
  cases h : acceptedRecord e with
  | none =>
    obtain ⟨msg, hmsg, _⟩ := analyseLine_rejected analyseState.init h
    simp [hmsg]
  | some r =>
    simp [(analyseLine_accepted analyseState.init h).2]

/-- C12: source failures change no counter.  Two event sequences that differ only in
source failures (events whose `err` is not nil), wherever these are inserted, leave the
same `speeches2013`, `speechesSecurity` and `speechesWords` and give the same three
results; and a failure event handled in any state leaves the three maps as they were,
after which the loop goes on with the events that follow. -/
theorem source_failures_change_no_counter (xs ys : List lineResult)
    (h : xs.filter (fun e => e.err.isNone) = ys.filter (fun e => e.err.isNone)) :
    (analyseLoop xs).speeches2013 = (analyseLoop ys).speeches2013 ∧
    (analyseLoop xs).speechesSecurity = (analyseLoop ys).speechesSecurity ∧
    (analyseLoop xs).speechesWords = (analyseLoop ys).speechesWords ∧
    (analyseLines xs).MostSpeeches = (analyseLines ys).MostSpeeches ∧
    (analyseLines xs).MostSecurity = (analyseLines ys).MostSecurity ∧
    (analyseLines xs).LeastWordy = (analyseLines ys).LeastWordy ∧
    (∀ (st : analyseState) (l u c : String) (rest : List lineResult),
      (analyseLine st { line := l, url := u, err := some c }).speeches2013 = st.speeches2013 ∧
      (analyseLine st { line := l, url := u, err := some c }).speechesSecurity =
        st.speechesSecurity ∧
      (analyseLine st { line := l, url := u, err := some c }).speechesWords =
        st.speechesWords ∧
      ({ line := l, url := u, err := some c } :: rest).foldl analyseLine st =
        rest.foldl analyseLine { st with Errors := st.Errors ++ [c] }) := by
  have hrec : acceptedRecords xs = acceptedRecords ys := by
    rw [← acceptedRecords_filter xs, ← acceptedRecords_filter ys, h]
  obtain ⟨h1, h2, h3⟩ := analyseLoop_maps_of_records hrec
  refine ⟨h1, h2, h3, ?_, ?_, ?_, ?_⟩
  · simp only [analyseLines, h1]
  · simp only [analyseLines, h2]
  · simp only [analyseLines, h3]
  · intro st l u c rest
    exact ⟨rfl, rfl, rfl, rfl⟩

theorem source_failures_change_no_counter_witness :
    (analyseLoop scenarioAWithFailures).speechesWords = (analyseLoop scenarioA).speechesWords ∧
    (analyseLoop scenarioAWithFailures).speechesWords = [("A", 100), ("B", 50)] ∧
    analyseLines scenarioAWithFailures =
      { MostSpeeches := "A", MostSecurity := "null", LeastWordy := "B",
        Errors := ["unexpected EOF", "unexpected EOF", "unexpected EOF", "unexpected EOF"] } :=
  ⟨(source_failures_change_no_counter scenarioAWithFailures scenarioA (by decide)).2.2.1,
    by decide, by decide⟩

/-- C13 on the code: for a failure event `analyseLines` appends exactly one string, the
message of the cause and nothing else; the URL of the event is not put into it.  The
failure that `readURLLines` sends for http://example.org/speeches.csv when the scanner
reports "unexpected EOF" is recorded as "unexpected EOF", which does not contain the URL. -/
theorem source_failure_error_is_cause_only :
    (∀ (st : analyseState) (l u c : String),
      (analyseLine st { line := l, url := u, err := some c }).Errors = st.Errors ++ [c]) ∧
    (readURLLines "http://example.org/speeches.csv"
      (.ok { steps := [{ text := "Speaker,Topic,Date,Words", err := none },
                       { text := "A,Econ", err := some "unexpected EOF" }],
             finalErr := some "unexpected EOF" })).sent = [readFailure] ∧
    (analyseLines [readFailure]).Errors = ["unexpected EOF"] ∧
    stringsContains "unexpected EOF" readFailure.url = false :=
  ⟨fun _ _ _ _ => rfl, by decide, by decide, by decide⟩

/-- C14: the error list is append-only and in arrival order.  Every event appends its
own error string, if it has one, behind the strings already there; an event has one
exactly when it is rejected (it carries an error, or its line has not four fields, or
the trimmed fourth field is not an integer); so the errors of a run are the error
strings of its rejected events in event order, the errors of `xs ++ ys` are those of `xs`
followed by those of `ys`, and there are as many errors as rejected events. -/
theorem errors_append_only (xs ys : List lineResult) :
    (analyseLines (xs ++ ys)).Errors = (analyseLines xs).Errors ++ (analyseLines ys).Errors ∧
    (analyseLines xs).Errors = xs.filterMap rejectionError ∧
    (analyseLines xs).Errors.length = xs.countP (fun e => (acceptedRecord e).isNone) ∧
    (∀ (st : analyseState) (e : lineResult),
      (analyseLine st e).Errors = st.Errors ++ (rejectionError e).toList) ∧
    (∀ e : lineResult, (rejectionError e).isSome = (acceptedRecord e).isNone) ∧
    (∀ e : lineResult, (acceptedRecord e).isNone = true ↔
      (e.err ≠ none ∨ (stringsSplit e.line ',').length ≠ 4 ∨
        strconvParseInt
          (stringsTrimSpace ((stringsSplit e.line ',').getD posWordCount "")) = none)) := by
  have herr : ∀ zs : List lineResult, (analyseLines zs).Errors = zs.filterMap rejectionError := by
    intro zs
    simp [analyseLines, analyseLoop, foldl_analyseLine_errors, analyseState.init]
  refine ⟨?_, herr xs, ?_, analyseLine_errors, rejectionError_isSome, ?_⟩
  · rw [herr, herr, herr, List.filterMap_append]
  · rw [herr, List.length_filterMap_eq_countP]
    congr 1
    funext e
    exact rejectionError_isSome e
  · intro e
    have h := acceptedRecord_isSome_iff e
    have hn : (acceptedRecord e).isNone = true ↔ ¬ (acceptedRecord e).isSome = true := by
      cases acceptedRecord e <;> simp
    rw [hn, h]
    generalize strconvParseInt
      (stringsTrimSpace ((stringsSplit e.line ',').getD posWordCount "")) = parsed
    cases parsed with
    | none => simp
    | some n =>
      simp only [Option.isSome_some, and_true, reduceCtorEq, or_false, ne_eq]
      tauto


/-! ## The source reader -/

theorem readLoop_lines (url : String) (ls : List String) :
    readLoop url (ls.map (fun l => { text := l, err := none })) = ls.map (rawLine url) := by
  induction ls with
  | nil => rfl
  | cons l rest ih => simp [readLoop, ih, rawLine]

theorem readLoop_lines_then_error (url : String) (ls : List String) (t c : String)
    (rest : List scanStep) :
    readLoop url (ls.map (fun l => { text := l, err := none }) ++
        { text := t, err := some c } :: rest) =
      ls.map (rawLine url) ++ [{ line := "", url := url, err := some c }] := by
  induction ls with
  | nil => rfl
  | cons l more ih => simp [readLoop, ih, rawLine]

/-- C15: for a source that opens and whose scanner delivers the lines `l0, l1, ..., ln`
without error, `readURLLines` sends exactly the events of `l1, ..., ln`, in that order,
each with the URL of the source and a nil error: the first line is skipped whatever it
holds, nothing else is dropped or added, a body of no line or of one line sends nothing,
and `wg.Done()` has run. -/
theorem readURLLines_sends_lines_after_header (url l0 : String) (rest : List String) :
    (readURLLines url (.ok (scanOfLines (l0 :: rest) none))).sent = rest.map (rawLine url) ∧
    (readURLLines url (.ok (scanOfLines (l0 :: rest) none))).sent.length = rest.length ∧
    (∀ e ∈ (readURLLines url (.ok (scanOfLines (l0 :: rest) none))).sent,
      e.url = url ∧ e.err = none) ∧
    (readURLLines url (.ok (scanOfLines [] none))).sent = [] ∧
    (readURLLines url (.ok (scanOfLines [l0] none))).sent = [] ∧
    (readURLLines url (.ok (scanOfLines (l0 :: rest) none))).wgDone = true := by
  have h : (readURLLines url (.ok (scanOfLines (l0 :: rest) none))).sent =
      rest.map (rawLine url) := by
    simp only [readURLLines, scanOfLines, List.map_cons, List.drop_one, List.tail_cons]
    exact readLoop_lines url rest
  refine ⟨h, ?_, ?_, rfl, rfl, rfl⟩
  · rw [h, List.length_map]
  · intro e he
    rw [h] at he
    obtain ⟨l, _, rfl⟩ := List.mem_map.1 he
    exact ⟨rfl, rfl⟩

/-- C16 on the code: `readURLLines` looks at `scanner.Err()` only after a `Scan` that
returned true, so what `Err()` returns once `Scan` has returned false has no effect on
what is sent.  A body that delivers a header and two lines and then fails with
"unexpected EOF" makes it send the two lines and no failure event; a failure event is
sent, after the lines before it, only when a successful `Scan` already shows the error. -/
theorem readURLLines_drops_final_read_error :
    (readURLLines "u" (.ok brokenBody)).sent =
      [rawLine "u" "A,Economy,2013-01-01,100", rawLine "u" "B,Other,2012-01-01,50"] ∧
    brokenBody.finalErr = some "unexpected EOF" ∧
    (∀ e ∈ (readURLLines "u" (.ok brokenBody)).sent, e.err = none) ∧
    (∀ (url : String) (steps : List scanStep) (e1 e2 : Option String),
      readURLLines url (.ok { steps := steps, finalErr := e1 }) =
        readURLLines url (.ok { steps := steps, finalErr := e2 })) ∧
    (∀ (url l0 t c : String) (ls : List String) (rest : List scanStep) (e : Option String),
      (readURLLines url (.ok
        { steps := { text := l0, err := none } :: (ls.map (fun l => { text := l, err := none }) ++
            { text := t, err := some c } :: rest),
          finalErr := e })).sent =
        ls.map (rawLine url) ++ [{ line := "", url := url, err := some c }]) := by
  refine ⟨by decide, rfl, by decide, fun _ _ _ _ => rfl, ?_⟩
  intro url l0 t c ls rest e
  simp only [readURLLines, List.drop_one, List.tail_cons]
  exact readLoop_lines_then_error url ls t c rest

/-- C17: when `http.Get` returns an error, `readURLLines` sends exactly one event, which
carries the URL of the source and that error and no line, and `wg.Done()` has run. -/
theorem readURLLines_open_failure (url e : String) :
    (readURLLines url (.error e)).sent = [{ line := "", url := url, err := some e }] ∧
    (readURLLines url (.error e)).sent.length = 1 ∧
    (∀ ev ∈ (readURLLines url (.error e)).sent, ev.err = some e ∧ ev.url = url) ∧
    (∀ ev ∈ (readURLLines url (.error e)).sent, ev.err ≠ none) ∧
    (readURLLines url (.error e)).wgDone = true := by
  refine ⟨rfl, rfl, ?_, ?_, rfl⟩
  · intro ev hev
    simp only [readURLLines, List.mem_singleton] at hev
    subst hev
    exact ⟨rfl, rfl⟩
  · intro ev hev
    simp only [readURLLines, List.mem_singleton] at hev
    subst hev
    simp

/-! ## Independence of the enumeration -/

/-- C19: the result of `sortMapGetResult` does not depend on the order in which the map
is enumerated nor on how the sort arranges entries of equal value: two enumerations that
are permutations of one another give the same string in either direction, and so does
the rank rule on any arrangement of the entries that `sort.Sort` may produce. -/
theorem sortMapGetResult_enumeration_independent (m1 m2 : CounterMap) (getFirst : Bool)
    (h : List.Perm m1 m2) :
    sortMapGetResult m1 getFirst = sortMapGetResult m2 getFirst ∧
    (∀ s : PairList, List.Perm s (m2.map toPair) →
      s.Sorted (fun a b =>
        (if getFirst then PairList.Less else sortReverse PairList.Less) b a = false) →
      m1 ≠ [] → topOrNull s = sortMapGetResult m1 getFirst) := by
  refine ⟨sortMapGetResult_perm h getFirst, ?_⟩
  intro s hperm hs hne
  obtain ⟨mp', hp', hsp⟩ := sortedPairs_covers_outcomes m2 getFirst s hperm hs
  have hne' : mp' ≠ [] := by
    intro h0
    rw [h0] at hp'
    have : m2 = [] := List.nil_perm.1 hp'
    rw [this] at h
    exact hne (List.perm_nil.1 h)
  rw [← hsp, ← sortMapGetResult_eq mp' getFirst hne']
  exact sortMapGetResult_perm (hp'.trans h.symm) getFirst

theorem sortMapGetResult_enumeration_independent_witness :
    sortMapGetResult [("A", 2), ("B", 2), ("C", 1)] false =
      sortMapGetResult [("B", 2), ("C", 1), ("A", 2)] false ∧
    topOrNull [{ Key := "B", Value := 2 }, { Key := "A", Value := 2 }, { Key := "C", Value := 1 }] =
      sortMapGetResult [("A", 2), ("B", 2), ("C", 1)] true ∧
    sortedPairs [("A", 2), ("B", 2), ("C", 1)] true =
      [{ Key := "A", Value := 2 }, { Key := "B", Value := 2 }, { Key := "C", Value := 1 }] :=
  ⟨(sortMapGetResult_enumeration_independent [("A", 2), ("B", 2), ("C", 1)]
      [("B", 2), ("C", 1), ("A", 2)] false (by decide)).1,
    (sortMapGetResult_enumeration_independent [("A", 2), ("B", 2), ("C", 1)]
      [("B", 2), ("C", 1), ("A", 2)] true (by decide)).2
      [{ Key := "B", Value := 2 }, { Key := "A", Value := 2 }, { Key := "C", Value := 1 }]
      (by decide) (by decide) (by decide),
    by decide⟩


/-! ## Keys of the counters -/

/-- The result of `sortMapGetResult` is "null" or a key of the map. -/
theorem sortMapGetResult_null_or_key (mp : CounterMap) (g : Bool) :
    sortMapGetResult mp g = "null" ∨ sortMapGetResult mp g ∈ mapKeys mp := by
  by_cases hne : mp = []
  · left
    rw [hne]
    rfl
  rw [sortMapGetResult_eq mp g hne]
  have hperm := sortedPairs_perm mp g
  generalize sortedPairs mp g = s at hperm
  have hkey : ∀ a ∈ s, a.Key ∈ mapKeys mp := by
    intro a ha
    exact List.mem_map_of_mem Prod.fst (mem_of_toPair_mem (hperm.mem_iff.1 ha))
  cases s with
  | nil => exact Or.inl rfl
  | cons a rest =>
    cases rest with
    | nil => exact Or.inr (hkey a (by simp))
    | cons b r =>
      by_cases hv : a.Value = b.Value
      · left
        simp [topOrNull, hv]
      · right
        simp only [topOrNull, hv, if_false]
        exact hkey a (by simp)

/-- The keys of `speechesWords` after a run are the speakers of the accepted lines. -/
theorem mem_keys_words_iff (lines : List lineResult) (k : String) :
    k ∈ mapKeys (analyseLoop lines).speechesWords ↔
      k ∈ (acceptedRecords lines).map Record.speaker := by
  rw [← not_iff_not, ← mapFind?_eq_none_iff, analyseLoop, foldl_analyseLine_words,
    mapFind?_applyUpd wrapInt wrapInt_add_wrapInt]
  simp only [analyseState.init, mapFind?, wordsUpdates, deltas]
  constructor
  · intro h hk
    obtain ⟨r, hr, hrk⟩ := List.mem_map.1 hk
    split at h
    · rename_i h0
      have hmem : (r.speaker, r.wordCount) ∈
          (List.map (fun r => (r.speaker, r.wordCount)) (acceptedRecords lines)).filter
            (fun u => decide (u.1 = k)) := by
        rw [List.mem_filter]
        exact ⟨List.mem_map_of_mem _ hr, by simpa using hrk⟩
      have := List.mem_map_of_mem Prod.snd hmem
      rw [h0] at this
      exact absurd this (List.not_mem_nil _)
    · simp at h
  · intro h
    rw [if_pos]
    rw [List.map_eq_nil_iff, List.filter_eq_nil_iff]
    intro u hu hk
    obtain ⟨r, hr, rfl⟩ := List.mem_map.1 hu
    exact h (List.mem_map.2 ⟨r, hr, by simpa using hk⟩)

/-- An entry of a counter incremented once per record of `recs` that satisfies `p`: its
value is at least one and its key is the speaker of such a record. -/
theorem counter_entry (recs : List Record) (p : Record → Bool) (k : String) (v : Int)
    (h : (k, v) ∈ applyUpd id [] ((recs.filter p).map (fun r => (r.speaker, (1 : Int))))) :
    1 ≤ v ∧ ∃ r ∈ recs, p r = true ∧ r.speaker = k := by
  have hnd : (mapKeys (applyUpd id []
      ((recs.filter p).map (fun r => (r.speaker, (1 : Int)))))).Nodup :=
    nodup_applyUpd id _ List.nodup_nil
  rw [mem_iff_mapFind? hnd, mapFind?_counter] at h
  split at h
  · simp at h
  · rename_i hc
    simp only [Option.some.injEq] at h
    have hpos : 0 < (recs.filter p).countP (fun r => decide (r.speaker = k)) :=
      Nat.pos_of_ne_zero hc
    constructor
    · rw [← h]
      exact_mod_cast hpos
    · obtain ⟨r, hr, hrk⟩ := List.countP_pos_iff.1 hpos
      rw [List.mem_filter] at hr
      exact ⟨r, hr.1, hr.2, by simpa using hrk⟩


/-- C20: after any run, every entry of `speeches2013` and of `speechesSecurity` has a
value of at least 1 and a key that is also a key of `speechesWords`; the keys of
`speechesWords` are exactly the first fields of the accepted lines; and a speaker none of
whose accepted lines has a date containing "2013" (or the target topic) has no entry in
`speeches2013` (or `speechesSecurity`) and, unless called "null", is never the result
computed from that map. -/
theorem counter_keys_invariant (lines : List lineResult) :
    (∀ k v, (k, v) ∈ (analyseLoop lines).speeches2013 →
      1 ≤ v ∧ k ∈ mapKeys (analyseLoop lines).speechesWords) ∧
    (∀ k v, (k, v) ∈ (analyseLoop lines).speechesSecurity →
      1 ≤ v ∧ k ∈ mapKeys (analyseLoop lines).speechesWords) ∧
    (∀ k, k ∈ mapKeys (analyseLoop lines).speechesWords ↔
      k ∈ (acceptedRecords lines).map Record.speaker) ∧
    (∀ s, (∀ r ∈ acceptedRecords lines, r.speaker = s →
        ¬ List.IsInfix "2013".data r.date.data) →
      s ∉ mapKeys (analyseLoop lines).speeches2013 ∧
      (s ≠ "null" → (analyseLines lines).MostSpeeches ≠ s)) ∧
    (∀ s, (∀ r ∈ acceptedRecords lines, r.speaker = s →
        stringsTrimSpace r.topic ≠ "Innere Sicherheit") →
      s ∉ mapKeys (analyseLoop lines).speechesSecurity ∧
      (s ≠ "null" → (analyseLines lines).MostSecurity ≠ s)) := by
  have h2013 : ∀ k v, (k, v) ∈ (analyseLoop lines).speeches2013 →
      1 ≤ v ∧ ∃ r ∈ acceptedRecords lines, stringsContains r.date "2013" = true ∧
        r.speaker = k := by
    intro k v hkv
    rw [analyseLoop, foldl_analyseLine_2013] at hkv
    exact counter_entry (acceptedRecords lines) (fun r => stringsContains r.date "2013") k v hkv
  have hsec : ∀ k v, (k, v) ∈ (analyseLoop lines).speechesSecurity →
      1 ≤ v ∧ ∃ r ∈ acceptedRecords lines,
        decide (stringsTrimSpace r.topic = "Innere Sicherheit") = true ∧ r.speaker = k := by
    intro k v hkv
    rw [analyseLoop, foldl_analyseLine_security] at hkv
    exact counter_entry (acceptedRecords lines)
      (fun r => decide (stringsTrimSpace r.topic = "Innere Sicherheit")) k v hkv
  have hkeys : ∀ (m : CounterMap) (s : String), s ∈ mapKeys m → ∃ v, (s, v) ∈ m := by
    intro m s hs
    obtain ⟨e, he, rfl⟩ := List.mem_map.1 hs
    exact ⟨e.2, he⟩
  have hres : ∀ (m : CounterMap) (g : Bool) (s : String), s ∉ mapKeys m → s ≠ "null" →
      sortMapGetResult m g ≠ s := by
    intro m g s hs hnull heq
    rcases sortMapGetResult_null_or_key m g with h | h
    · exact hnull (heq.symm.trans h)
    · exact hs (heq ▸ h)
  refine ⟨?_, ?_, mem_keys_words_iff lines, ?_, ?_⟩
  · intro k v hkv
    obtain ⟨hv, r, hr, _, hrk⟩ := h2013 k v hkv
    exact ⟨hv, (mem_keys_words_iff lines k).2 (List.mem_map.2 ⟨r, hr, hrk⟩)⟩
  · intro k v hkv
    obtain ⟨hv, r, hr, _, hrk⟩ := hsec k v hkv
    exact ⟨hv, (mem_keys_words_iff lines k).2 (List.mem_map.2 ⟨r, hr, hrk⟩)⟩
  · intro s hno
    have habs : s ∉ mapKeys (analyseLoop lines).speeches2013 := by
      intro hs
      obtain ⟨v, hv⟩ := hkeys _ s hs
      obtain ⟨_, r, hr, hp, hrk⟩ := h2013 s v hv
      exact hno r hr hrk ((stringsContains_iff r.date "2013").1 hp)
    exact ⟨habs, fun hnull => hres _ true s habs hnull⟩
  · intro s hno
    have habs : s ∉ mapKeys (analyseLoop lines).speechesSecurity := by
      intro hs
      obtain ⟨v, hv⟩ := hkeys _ s hs
      obtain ⟨_, r, hr, hp, hrk⟩ := hsec s v hv
      exact hno r hr hrk (by simpa using hp)
    exact ⟨habs, fun hnull => hres _ true s habs hnull⟩

theorem counter_keys_invariant_witness :
    (analyseLoop securityLines).speeches2013 = [("A", 1), ("C", 1)] ∧
    (analyseLoop securityLines).speechesSecurity = [("C", 2)] ∧
    mapKeys (analyseLoop securityLines).speechesWords = ["A", "B", "C"] ∧
    (1 ≤ (1 : Int) ∧ "C" ∈ mapKeys (analyseLoop securityLines).speechesWords) ∧
    "B" ∉ mapKeys (analyseLoop securityLines).speeches2013 ∧
    (analyseLines securityLines).MostSecurity ≠ "A" :=
  ⟨by decide, by decide, by decide,
    (counter_keys_invariant securityLines).1 "C" 1 (by decide),
    ((counter_keys_invariant securityLines).2.2.2.1 "B" (by decide)).1,
    ((counter_keys_invariant securityLines).2.2.2.2 "A" (by decide)).2 (by decide)⟩


end FileAnalyser
